import Mathlib

/-!
Shallow embedding of the MLRun Python SDK's core client pipeline
(`mlrun/queue.py`, `mlrun/batching.py`, `mlrun/worker.py`, `mlrun/spool.py`)
together with theorems checking the repository's specification against it.

Modelling conventions:
- Python numbers that flow through payloads are modelled by an inductive
  `Value` (string / int / rational); floats are modelled as rationals.
- Python dicts used as payloads are modelled as association lists with
  first-match lookup (dict keys are unique in all code paths involved).
- Wall-clock reads (`time.time()`, `time.perf_counter()`) are passed in as
  explicit parameters where the behaviour under scrutiny depends on them,
  and omitted where it does not (they never influence the claims below
  except where noted in doc comments).
- Thread-level concurrency is modelled by sequences of atomic operations:
  every Python operation concerned runs under a lock in the source.
-/

namespace MLRun

/-- A Python payload value: string, int, or float (modelled as `ℚ`). -/
inductive Value where
  | str : String → Value
  | int : Int → Value
  | num : ℚ → Value
deriving DecidableEq

/-- Python `str(v)` for payload values. String lengths of numbers are a
model of Python's decimal rendering; no claim depends on exact lengths. -/
def Value.pyStr : Value → String
  | .str s => s
  | .int n => toString n
  | .num q => toString q

/-- `EventType` enum from `mlrun/queue.py`. -/
inductive EventType where
  | metric | param | tag | artifact | run_start | run_finish
deriving DecidableEq

/-- The `.value` attribute of the Python enum member. -/
def EventType.value : EventType → String
  | .metric => "metric"
  | .param => "param"
  | .tag => "tag"
  | .artifact => "artifact"
  | .run_start => "run_start"
  | .run_finish => "run_finish"

/-- `EventType(s)`: enum lookup by value; `none` models the `ValueError`. -/
def EventType.ofValue (s : String) : Option EventType :=
  if s = "metric" then some .metric
  else if s = "param" then some .param
  else if s = "tag" then some .tag
  else if s = "artifact" then some .artifact
  else if s = "run_start" then some .run_start
  else if s = "run_finish" then some .run_finish
  else none

/-- Payload dict of an event: association list with unique keys. -/
def PayloadData := List (String × Value)
deriving instance DecidableEq for PayloadData

/-- `d.get(k, dflt)` on a Python dict (first-match lookup). -/
def dget (d : PayloadData) (k : String) (dflt : Value) : Value :=
  match d.find? (fun kv => kv.1 = k) with
  | some kv => kv.2
  | none => dflt

/-- `Event` dataclass from `mlrun/queue.py`. -/
structure Event where
  type : EventType
  run_id : String
  timestamp : ℚ
  data : PayloadData
deriving DecidableEq

instance : Inhabited Event := ⟨⟨.metric, "", 0, []⟩⟩

/-! ## Connection state (`mlrun/worker.py`, class `ConnectionState`)

Time fields (`_last_success_time`, `_last_failure_time`) are write-only
diagnostics, exposed only by `to_dict`; they are omitted.  All other
methods of the class (`is_online`, `consecutive_failures`, `to_dict`)
are pure reads, so `record_success` and `record_failure` below are the
only state-changing operations of the class. -/

structure ConnectionState where
  online : Bool
  consecutive_failures : Nat
deriving DecidableEq

/-- `ConnectionState.__init__`. -/
def ConnectionState.init : ConnectionState := ⟨true, 0⟩

/-- `ConnectionState.record_success`. -/
def ConnectionState.record_success (_s : ConnectionState) : ConnectionState :=
  ⟨true, 0⟩

/-- `ConnectionState.record_failure`. -/
def ConnectionState.record_failure (s : ConnectionState) : ConnectionState :=
  let cf := s.consecutive_failures + 1
  ⟨if 3 ≤ cf ∧ s.online then false else s.online, cf⟩

/-! ## Event queue (`mlrun/queue.py`, class `EventQueue`)

`EventQueue` wraps `queue.Queue(maxsize=max_size)`.  Following CPython's
`Queue.put(block=False)`, the queue is full exactly when
`0 < maxsize ≤ qsize`; a `maxsize` of zero means unbounded. -/

structure EventQueue where
  maxsize : Nat
  items : List Event
  dropped_count : Nat
deriving DecidableEq

/-- `EventQueue.__init__(max_size)`. -/
def EventQueue.init (maxSize : Nat) : EventQueue := ⟨maxSize, [], 0⟩

/-- `EventQueue.put`: non-blocking; on `queue.Full` increments the dropped
counter and returns `False`. -/
def EventQueue.put (q : EventQueue) (e : Event) : EventQueue × Bool :=
  if 0 < q.maxsize ∧ q.maxsize ≤ q.items.length then
    ({ q with dropped_count := q.dropped_count + 1 }, false)
  else
    ({ q with items := q.items ++ [e] }, true)

/-- `EventQueue.get_batch(max_items, timeout_ms)`: removes up to
`max_items` events from the front.  `avail` is the number of successful
`get` calls the deadline permits, modelling the wall-clock
nondeterminism of the retrieval loop. -/
def EventQueue.get_batch (q : EventQueue) (maxItems avail : Nat) :
    EventQueue × List Event :=
  let n := min (min maxItems avail) q.items.length
  ({ q with items := q.items.drop n }, q.items.take n)

/-- `EventQueue.drain`: removes and returns everything. -/
def EventQueue.drain (q : EventQueue) : EventQueue × List Event :=
  ({ q with items := [] }, q.items)

/-- `EventQueue.size`. -/
def EventQueue.size (q : EventQueue) : Nat := q.items.length

/-- One client-visible queue operation. -/
inductive QOp where
  | put : Event → QOp
  | get_batch : Nat → Nat → QOp
  | drain : QOp

/-- Execute one queue operation, returning the events it removed. -/
def qstep (q : EventQueue) : QOp → EventQueue × List Event
  | .put e => ((q.put e).1, [])
  | .get_batch m a => q.get_batch m a
  | .drain => q.drain

/-- Run a sequence of queue operations; the `Nat` accumulates the total
number of events returned by all `get_batch` and `drain` calls. -/
def qrun (q : EventQueue) : List QOp → EventQueue × Nat
  | [] => (q, 0)
  | op :: ops =>
    let s := qstep q op
    let r := qrun s.1 ops
    (r.1, s.2.length + r.2)

/-- Number of events offered to `put` in an operation sequence. -/
def offeredCount (ops : List QOp) : Nat :=
  ops.countP fun op => match op with | .put _ => true | _ => false

/-! ## Adaptive batcher (`mlrun/batching.py`)

`created_at`, `age_ms` and the boolean returned by `add`
(`should_flush`) depend on the wall clock and are not needed by the
claims below; `add` is modelled as the state update it performs.  The
coalescing index dicts are association lists whose keys are the raw
payload values the Python code uses as dict keys. -/

structure BatchConfig where
  max_items : Nat
  max_bytes : Int
  coalesce_metrics : Bool
  dedupe_params : Bool
  dedupe_tags : Bool
deriving DecidableEq

/-- `BatchStats` (without the wall-clock `created_at`). -/
structure BatchStats where
  event_count : Nat
  metric_count : Nat
  param_count : Nat
  tag_count : Nat
  estimated_bytes : Int
  coalesced_count : Nat
deriving DecidableEq

def BatchStats.initial : BatchStats := ⟨0, 0, 0, 0, 0, 0⟩

/-- `AdaptiveBatcher._estimate_event_size`. -/
def estimateEventSize (e : Event) : Int :=
  50 + (e.data.map (fun kv => (kv.1.length : Int) + (kv.2.pyStr.length : Int) + 10)).sum

/-- The metric coalescing key `(name, step)` (raw payload values). -/
def metricKey (e : Event) : Value × Value :=
  (dget e.data "name" (.str ""), dget e.data "step" (.int 0))

/-- The param dedup key `name`. -/
def paramKey (e : Event) : Value := dget e.data "name" (.str "")

/-- The tag dedup key `key`. -/
def tagKey (e : Event) : Value := dget e.data "key" (.str "")

structure AdaptiveBatcher where
  config : BatchConfig
  events : List Event
  stats : BatchStats
  metric_index : List ((Value × Value) × Nat)
  param_index : List (Value × Nat)
  tag_index : List (Value × Nat)

def AdaptiveBatcher.initial (cfg : BatchConfig) : AdaptiveBatcher :=
  ⟨cfg, [], BatchStats.initial, [], [], []⟩

/-- Dict lookup in a coalescing index. -/
def idxLookup {κ : Type} [DecidableEq κ] (ix : List (κ × Nat)) (k : κ) : Option Nat :=
  (ix.find? (fun p => p.1 = k)).map (·.2)

/-- `AdaptiveBatcher._update_stats`. -/
def AdaptiveBatcher.updateStats (b : AdaptiveBatcher) (e : Event) : AdaptiveBatcher :=
  { b with stats := { b.stats with
      event_count := b.stats.event_count + 1
      estimated_bytes := b.stats.estimated_bytes + estimateEventSize e
      metric_count := b.stats.metric_count + (if e.type = .metric then 1 else 0)
      param_count := b.stats.param_count + (if e.type = .param then 1 else 0)
      tag_count := b.stats.tag_count + (if e.type = .tag then 1 else 0) } }

/-- The replacement step shared (inlined) by `_add_metric_coalesced`,
`_add_param_deduped` and `_add_tag_deduped`: overwrite slot `idx`,
bump `coalesced_count`, adjust the byte estimate. -/
def AdaptiveBatcher.replaceAt (b : AdaptiveBatcher) (idx : Nat) (e : Event) : AdaptiveBatcher :=
  let old := b.events.getD idx default
  { b with
      events := b.events.set idx e
      stats := { b.stats with
        coalesced_count := b.stats.coalesced_count + 1
        estimated_bytes := b.stats.estimated_bytes - estimateEventSize old + estimateEventSize e } }

/-- `AdaptiveBatcher._add_metric_coalesced`. -/
def AdaptiveBatcher.addMetricCoalesced (b : AdaptiveBatcher) (e : Event) : AdaptiveBatcher :=
  let key := metricKey e
  match idxLookup b.metric_index key with
  | some idx => b.replaceAt idx e
  | none =>
    let b' := { b with metric_index := (key, b.events.length) :: b.metric_index }
    ({ b' with events := b'.events ++ [e] }).updateStats e

/-- `AdaptiveBatcher._add_param_deduped`. -/
def AdaptiveBatcher.addParamDeduped (b : AdaptiveBatcher) (e : Event) : AdaptiveBatcher :=
  let key := paramKey e
  match idxLookup b.param_index key with
  | some idx => b.replaceAt idx e
  | none =>
    let b' := { b with param_index := (key, b.events.length) :: b.param_index }
    ({ b' with events := b'.events ++ [e] }).updateStats e

/-- `AdaptiveBatcher._add_tag_deduped`. -/
def AdaptiveBatcher.addTagDeduped (b : AdaptiveBatcher) (e : Event) : AdaptiveBatcher :=
  let key := tagKey e
  match idxLookup b.tag_index key with
  | some idx => b.replaceAt idx e
  | none =>
    let b' := { b with tag_index := (key, b.events.length) :: b.tag_index }
    ({ b' with events := b'.events ++ [e] }).updateStats e

/-- `AdaptiveBatcher.add` (state update; the returned `should_flush`
is wall-clock dependent and unused by the claims). -/
def AdaptiveBatcher.add (b : AdaptiveBatcher) (e : Event) : AdaptiveBatcher :=
  if e.type = .metric ∧ b.config.coalesce_metrics then b.addMetricCoalesced e
  else if e.type = .param ∧ b.config.dedupe_params then b.addParamDeduped e
  else if e.type = .tag ∧ b.config.dedupe_tags then b.addTagDeduped e
  else ({ b with events := b.events ++ [e] }).updateStats e

/-- `AdaptiveBatcher.flush`: returned events and stats.  The Python
`None`-filter is the identity here: coalescing replaces slots in place
and never stores `None`. -/
def AdaptiveBatcher.flush (b : AdaptiveBatcher) : List Event × BatchStats :=
  (b.events, b.stats)

/-- Fold a whole add-sequence into a fresh batcher. -/
def batchAddAll (cfg : BatchConfig) (es : List Event) : AdaptiveBatcher :=
  es.foldl AdaptiveBatcher.add (AdaptiveBatcher.initial cfg)

/-! ### Spec-side reference for coalescing (claim C1)

These definitions follow the specification's words: each retained
identity keeps its first-insertion slot and carries the payload of the
last event offered with that identity. -/

/-- The coalescing identity of an event under a batch config:
`(name, step)` for metrics, `name` for params, `key` for tags, applied
only when the corresponding config flag is on. -/
inductive CKey where
  | m : Value × Value → CKey
  | p : Value → CKey
  | t : Value → CKey
deriving DecidableEq

/-- Identity assignment mirroring the `add` dispatch conditions. -/
def ckey (cfg : BatchConfig) (e : Event) : Option CKey :=
  if e.type = .metric ∧ cfg.coalesce_metrics then some (.m (metricKey e))
  else if e.type = .param ∧ cfg.dedupe_params then some (.p (paramKey e))
  else if e.type = .tag ∧ cfg.dedupe_tags then some (.t (tagKey e))
  else none

/-- Two events share a coalescing identity. -/
def sameKey (cfg : BatchConfig) (a b : Event) : Bool :=
  match ckey cfg a, ckey cfg b with
  | some k, some k' => decide (k = k')
  | _, _ => false

/-- First occurrence of each identity, in insertion order; events with
no identity are all kept. -/
def keepFirsts (cfg : BatchConfig) : List Event → List Event
  | [] => []
  | e :: rest => e :: keepFirsts cfg (rest.filter (fun x => !(sameKey cfg e x)))
termination_by l => l.length
decreasing_by
  simpa using Nat.lt_succ_of_le (List.length_filter_le _ rest)

/-- The last event of `es` sharing `e`'s identity (or `e` itself when
`e` has no identity). -/
def lastSame (cfg : BatchConfig) (es : List Event) (e : Event) : Event :=
  ((es.filter (fun x => sameKey cfg e x)).getLast?).getD e

/-- Spec-level coalescing: first-insertion order of retained
identities, payload of the last writer. -/
def specCoalesce (cfg : BatchConfig) (es : List Event) : List Event :=
  (keepFirsts cfg es).map (lastSame cfg es)

/-- First index of a list element satisfying `p`. -/
def firstIdx {α : Type} (p : α → Bool) : List α → Option Nat
  | [] => none
  | x :: xs => if p x then some 0 else (firstIdx p xs).map (· + 1)

/-- First index in `es` whose event has identity `k`. -/
def keyAt (cfg : BatchConfig) (es : List Event) (k : CKey) : Option Nat :=
  firstIdx (fun e => ckey cfg e = some k) es

/-- Simulation invariant for the batcher: after folding `es`, the
events list is the spec-level coalescing of `es`, each index dict
locates exactly the slot of its identity, and `coalesced_count`
accounts for every replacement. -/
def BatcherInv (cfg : BatchConfig) (b : AdaptiveBatcher) (es : List Event) : Prop :=
  b.config = cfg
  ∧ b.events = specCoalesce cfg es
  ∧ (∀ nk : Value × Value, idxLookup b.metric_index nk = keyAt cfg b.events (CKey.m nk))
  ∧ (∀ v : Value, idxLookup b.param_index v = keyAt cfg b.events (CKey.p v))
  ∧ (∀ v : Value, idxLookup b.tag_index v = keyAt cfg b.events (CKey.t v))
  ∧ b.stats.coalesced_count + b.events.length = es.length

/-! ## Flush worker send path (`mlrun/worker.py`, `FlushWorker._send_batch`)

The transport is modelled by an oracle giving the outcome of the `i`-th
`transport.send_batch` invocation.  `self._spool is not None` holds in
the worker exactly when `config.spool_enabled` (see `__init__`).
Serialization and gzip compression happen once, before the retry loop;
the loop passes the very same payload object to the transport at each
attempt, so the payload is recorded per attempt to make that
observable. -/

/-- Slice of `Config` used by `_send_batch`. -/
structure WorkerConfig where
  max_retries : Nat
  retry_delay_ms : ℚ
  retry_backoff : ℚ
  retry_max_delay_ms : ℚ
  spool_enabled : Bool
deriving DecidableEq

/-- Outcome of one `transport.send_batch` call: success, or a
`TransportError` with its `retryable` flag. -/
inductive SendOutcome where
  | ok
  | err (retryable : Bool)
deriving DecidableEq

/-- The `stats` sub-dict of the batch envelope. -/
structure PayloadStats where
  metric_count : Nat
  param_count : Nat
  tag_count : Nat
  coalesced_count : Nat
deriving DecidableEq

/-- The batch envelope built by `_send_batch` (before serialization). -/
structure BatchPayload where
  run_id : String
  metrics : List PayloadData
  params : List PayloadData
  tags : List PayloadData
  timestamp : ℚ
  stats : PayloadStats
deriving DecidableEq

/-- Envelope construction (`_send_batch` lines grouping events by type
and building the `batch` dict); `now` is the single `time.time()` read. -/
def mkBatchPayload (events : List Event) (stats : BatchStats) (now : ℚ) : BatchPayload :=
  { run_id := events.headI.run_id
    metrics := (events.filter (fun e => e.type = .metric)).map (·.data)
    params := (events.filter (fun e => e.type = .param)).map (·.data)
    tags := (events.filter (fun e => e.type = .tag)).map (·.data)
    timestamp := now
    stats := ⟨stats.metric_count, stats.param_count, stats.tag_count, stats.coalesced_count⟩ }

/-- Observable result of `_send_batch`: return value, updated
connection state and counters, the payload passed to the transport at
each attempt (in order), and the sleep durations (seconds, in order). -/
structure SendResult where
  success : Bool
  conn : ConnectionState
  batch_count : Nat
  error_count : Nat
  sent : List BatchPayload
  sleeps : List ℚ
deriving DecidableEq

/-- The retry loop of `_send_batch`.  `i` is the index of the current
attempt, `fuel` is `max_retries - retries` (retries still allowed),
`d` the current backoff delay in seconds. -/
def retryLoop (oracle : Nat → SendOutcome) (backoff maxDelay : ℚ) (payload : BatchPayload) :
    Nat → Nat → ℚ → ConnectionState → Nat → Nat → SendResult
  | i, fuel, d, conn, bc, ec =>
    match oracle i, fuel with
    | .ok, _ =>
      { success := true, conn := conn.record_success, batch_count := bc + 1
        error_count := ec, sent := [payload], sleeps := [] }
    | .err true, fuel' + 1 =>
      let res := retryLoop oracle backoff maxDelay payload (i + 1) fuel'
        (min (d * backoff) maxDelay) conn.record_failure bc ec
      { res with sent := payload :: res.sent, sleeps := d :: res.sleeps }
    | .err _, _ =>
      { success := false, conn := conn.record_failure, batch_count := bc
        error_count := ec + 1, sent := [payload], sleeps := [] }

/-- `FlushWorker._send_batch`.  `bc`/`ec` are `_batch_count` /
`_error_count` going in. -/
def sendBatch (cfg : WorkerConfig) (oracle : Nat → SendOutcome) (now : ℚ)
    (conn : ConnectionState) (bc ec : Nat) (events : List Event) (stats : BatchStats) :
    SendResult :=
  if events.isEmpty then
    { success := true, conn := conn, batch_count := bc, error_count := ec
      sent := [], sleeps := [] }
  else if conn.online = false ∧ cfg.spool_enabled = true then
    { success := false, conn := conn, batch_count := bc, error_count := ec
      sent := [], sleeps := [] }
  else
    retryLoop oracle cfg.retry_backoff (cfg.retry_max_delay_ms / 1000)
      (mkBatchPayload events stats now)
      0 cfg.max_retries (cfg.retry_delay_ms / 1000) conn bc ec

/-- The backoff delay before the `n`-th retry (seconds):
`delaySeq d0 b M 0 = d0`, then `min (previous * b) M`. -/
def delaySeq (d0 b M : ℚ) : Nat → ℚ
  | 0 => d0
  | n + 1 => min (delaySeq d0 b M n * b) M

/-- `BatchStats` built by `FlushWorker._send_spooled_events`. -/
def spooledStats (events : List Event) : BatchStats :=
  { event_count := events.length
    metric_count := (events.filter (fun e => e.type = .metric)).length
    param_count := (events.filter (fun e => e.type = .param)).length
    tag_count := (events.filter (fun e => e.type = .tag)).length
    estimated_bytes := 0
    coalesced_count := 0 }

/-! ## Disk spool (`mlrun/spool.py`)

The spool directory is modelled as a list of file entries with
structured names `(base, ext)`, a modification time, an on-disk size
and the parsed record content.  `json.dump`/`json.load` round-trip the
structured record, so file content is modelled as the record itself;
on-disk byte sizes (`len(json.dumps(...))`, `stat().st_size`) are
modelled by concrete size functions whose exact values no claim
depends on. -/

def SPOOL_VERSION : Nat := 1

/-- The per-event dict built by `SpoolFile.append`. -/
structure EventDict where
  type : String
  run_id : String
  timestamp : ℚ
  data : PayloadData
deriving DecidableEq

/-- `SpoolFile.append`'s `event_dict`. -/
def eventToDict (e : Event) : EventDict :=
  ⟨e.type.value, e.run_id, e.timestamp, e.data⟩

/-- Event reconstruction in `SpoolFile.read_events`; `none` models the
`ValueError` from `EventType(event_dict["type"])`. -/
def dictToEvent (d : EventDict) : Option Event :=
  (EventType.ofValue d.type).map (fun t => ⟨t, d.run_id, d.timestamp, d.data⟩)

/-- Size model for `len(json.dumps(event_dict))`. -/
def eventDictSize (d : EventDict) : Nat :=
  60 + d.type.length + d.run_id.length +
    (d.data.map (fun kv => kv.1.length + kv.2.pyStr.length + 8)).sum

/-- The record `{version, run_id, created_at, events}` stored in a
spool file. -/
structure SpoolRecord where
  version : Nat
  run_id : String
  created_at : ℚ
  events : List EventDict
deriving DecidableEq

/-- Size model for the serialized record (`stat().st_size`). -/
def recordSize (r : SpoolRecord) : Nat :=
  40 + r.run_id.length + (r.events.map eventDictSize).sum

/-- The `for` loop of `SpoolFile.read_events`: rebuild events in file
order; `none` models a raised `ValueError` aborting the whole read. -/
def readEventsList : List EventDict → Option (List Event)
  | [] => some []
  | d :: rest =>
    match dictToEvent d, readEventsList rest with
    | some e, some es => some (e :: es)
    | _, _ => none

/-- `SpoolFile.read_events` applied to a parsed record. -/
def readRecordEvents (r : SpoolRecord) : Option (List Event) :=
  readEventsList r.events

/-- One file in the spool directory. -/
structure FileEntry where
  base : String
  ext : String
  mtime : ℚ
  size : Nat
  content : SpoolRecord
deriving DecidableEq

abbrev FS := List FileEntry

/-- First entry named `base ++ ext` (names are unique on a real disk;
all writers below preserve that). -/
def fsFind (fs : FS) (b ext : String) : Option FileEntry :=
  fs.find? (fun f => f.base = b ∧ f.ext = ext)

def fsRemove (fs : FS) (b ext : String) : FS :=
  fs.filter (fun f => ¬(f.base = b ∧ f.ext = ext))

/-- `open(path, "w")` + `json.dump`: replace or create the file. -/
def fsWrite (fs : FS) (b ext : String) (now : ℚ) (r : SpoolRecord) : FS :=
  fsRemove fs b ext ++ [⟨b, ext, now, recordSize r, r⟩]

/-- `os.replace(src, dst)`: atomic rename, overwriting `dst`; keeps the
source file's mtime.  No-op when the source does not exist. -/
def fsRename (fs : FS) (b src dst : String) : FS :=
  match fsFind fs b src with
  | some f => fsRemove (fsRemove fs b src) b dst ++ [{ f with ext := dst }]
  | none => fs

/-- In-memory state of a `SpoolFile` (path split as `base` plus the
`.spool` extension). -/
structure SpoolFileSt where
  base : String
  run_id : String
  events : List EventDict
  size_bytes : Nat
  created_at : ℚ
deriving DecidableEq

/-- `SpoolFile.append`. -/
def SpoolFileSt.append (f : SpoolFileSt) (e : Event) : SpoolFileSt :=
  let d := eventToDict e
  { f with events := f.events ++ [d], size_bytes := f.size_bytes + eventDictSize d }

/-- The record `SpoolFile.flush` serializes. -/
def SpoolFileSt.record (f : SpoolFileSt) : SpoolRecord :=
  ⟨SPOOL_VERSION, f.run_id, f.created_at, f.events⟩

/-- `SpoolFile.flush`: write the record to the `.pending` temp name,
then atomically rename it to the `.spool` name.  No-op when empty. -/
def SpoolFileSt.flushFS (f : SpoolFileSt) (fs : FS) (now : ℚ) : FS :=
  if f.events.isEmpty then fs
  else fsRename (fsWrite fs f.base ".pending" now f.record) f.base ".pending" ".spool"

/-- `SpoolFile.read_events` against the disk: a missing file reads as
`[]`; a present file parses its record. -/
def readSpoolFS (fs : FS) (b : String) : Option (List Event) :=
  match fsFind fs b ".spool" with
  | some f => readRecordEvents f.content
  | none => some []

/-- Slice of `SpoolConfig` the claims use. -/
structure SpoolLimits where
  max_file_size_bytes : Nat
  max_total_size_bytes : Nat
deriving DecidableEq

structure SpoolStats where
  pending_files : Nat
  pending_events : Nat
  pending_bytes : Nat
  completed_files : Nat
  total_synced : Nat
  last_sync_time : ℚ
deriving DecidableEq

def SpoolStats.initial : SpoolStats := ⟨0, 0, 0, 0, 0, 0⟩

structure DiskSpool where
  config : SpoolLimits
  active_files : List (String × SpoolFileSt)
  stats : SpoolStats
  fs : FS
deriving DecidableEq

/-- `DiskSpool._update_stats`: recompute the cached stats from disk. -/
def DiskSpool.updateStats (s : DiskSpool) : DiskSpool :=
  let pending := s.fs.filter (fun f => f.ext = ".spool")
  let completed := s.fs.filter (fun f => f.ext = ".done")
  { s with stats := { s.stats with
      pending_files := pending.length
      completed_files := completed.length
      pending_bytes := (pending.map (·.size)).sum
      pending_events := (pending.map (fun f => f.content.events.length)).sum } }

def afLookup (m : List (String × SpoolFileSt)) (rid : String) : Option SpoolFileSt :=
  (m.find? (fun p => p.1 = rid)).map (·.2)

def afSet (m : List (String × SpoolFileSt)) (rid : String) (f : SpoolFileSt) :
    List (String × SpoolFileSt) :=
  if m.any (fun p => p.1 = rid) then
    m.map (fun p => if p.1 = rid then (rid, f) else p)
  else m ++ [(rid, f)]

def afRemove (m : List (String × SpoolFileSt)) (rid : String) :
    List (String × SpoolFileSt) :=
  m.filter (fun p => ¬(p.1 = rid))

/-- `DiskSpool.spool`: refuse when the cached `stats.pending_bytes` has
reached `max_total_size_bytes` (the check reads `self._stats`, it does
not recompute from disk); otherwise append to the run's active file,
flushing and retiring it when `size_bytes` reaches
`max_file_size_bytes`.  `freshBase` is the generated
`{run_id}_{millis}_{rand8}` name for a newly created file. -/
def DiskSpool.spool (s : DiskSpool) (e : Event) (now : ℚ) (freshBase : String) :
    DiskSpool × Bool :=
  if s.config.max_total_size_bytes ≤ s.stats.pending_bytes then (s, false)
  else
    let f0 := match afLookup s.active_files e.run_id with
      | some f => f
      | none => ⟨freshBase, e.run_id, [], 0, now⟩
    let f1 := f0.append e
    if s.config.max_file_size_bytes ≤ f1.size_bytes then
      ({ s with fs := f1.flushFS s.fs now
                active_files := afRemove s.active_files e.run_id }, true)
    else
      ({ s with active_files := afSet s.active_files e.run_id f1 }, true)

/-- `DiskSpool.flush_all`: flush every active file to disk (they stay
in the active map; `SpoolFile.flush` does not clear buffers). -/
def DiskSpool.flushAll (s : DiskSpool) (now : ℚ) : DiskSpool :=
  { s with fs := s.active_files.foldl (fun fs p => p.2.flushFS fs now) s.fs }

/-- `DiskSpool.get_pending_files`: `.spool` entries sorted by mtime
ascending. -/
def getPendingFiles (fs : FS) : List FileEntry :=
  (fs.filter (fun f => f.ext = ".spool")).mergeSort (fun a b => a.mtime ≤ b.mtime)

/-- `DiskSpool.mark_synced`: rename `.spool` → `.done`, bump
`total_synced`, stamp `last_sync_time`. -/
def DiskSpool.markSynced (s : DiskSpool) (b : String) (now : ℚ) : DiskSpool :=
  { s with fs := fsRename s.fs b ".spool" ".done"
           stats := { s.stats with
             total_synced := s.stats.total_synced + 1
             last_sync_time := now } }

/-! ## Spool syncer (`mlrun/spool.py`, `SpoolSyncer._sync_pending`)

The send callback threads a caller-chosen state `σ` and reports how
many transport invocations it made, so the same loop serves the
counter-instantiated form (claim C8) and the worker-connected form
(claim C10). -/

/-- `_sync_pending`'s per-file loop over an already-listed file
sequence.  A file that fails to parse (`none`) raises inside the
`try`, is logged, and the loop continues with the next file; an empty
file is marked completed; otherwise it is sent, marked completed on
success, and on failure the loop breaks. -/
def syncFiles {σ : Type} (send : σ → List Event → Bool × σ × Nat) (now : ℚ) :
    List FileEntry → DiskSpool → σ → DiskSpool × σ × Nat
  | [], s, st => (s, st, 0)
  | f :: rest, s, st =>
    match readRecordEvents f.content with
    | none => syncFiles send now rest s st
    | some [] => syncFiles send now rest (s.markSynced f.base now) st
    | some (e :: es) =>
      let r := send st (e :: es)
      if r.1 then
        let res := syncFiles send now rest (s.markSynced f.base now) r.2.1
        (res.1, res.2.1, r.2.2 + res.2.2)
      else (s, r.2.1, r.2.2)

/-- `SpoolSyncer._sync_pending`: list pending files (mtime order) and
process them. -/
def syncPendingPass {σ : Type} (send : σ → List Event → Bool × σ × Nat) (now : ℚ)
    (s : DiskSpool) (st : σ) : DiskSpool × σ × Nat :=
  syncFiles send now (getPendingFiles s.fs) s st

/-- Spec-side description for claim C8: the files of one pass that get
marked `.done`, in processing order.  `k` counts send calls made so
far; `oracle k` is the result of the `k`-th send. -/
def plannedSync (oracle : Nat → Bool) : Nat → List FileEntry → List FileEntry
  | _, [] => []
  | k, f :: rest =>
    match readRecordEvents f.content with
    | none => plannedSync oracle k rest
    | some [] => f :: plannedSync oracle k rest
    | some (_ :: _) => if oracle k then f :: plannedSync oracle (k + 1) rest else []

/-- Spec-side count of send calls one pass performs (stops counting
after the first failed send). -/
def sendCallCount (oracle : Nat → Bool) : Nat → List FileEntry → Nat
  | _, [] => 0
  | k, f :: rest =>
    match readRecordEvents f.content with
    | none => sendCallCount oracle k rest
    | some [] => sendCallCount oracle k rest
    | some (_ :: _) => if oracle k then 1 + sendCallCount oracle (k + 1) rest else 1

/-! ## Worker-and-syncer system (claim C10)

System state: the connection plus counters owned by the worker, and the
disk spool shared with the syncer.  Operations are the transport-facing
code paths: the worker's `_do_flush` (send, spooling the batch on
failure) and the syncer's loop body (skip when offline, else
`_sync_pending` with `send_func = _send_spooled_events`).  The `Nat`
each step returns counts `transport.send_batch` invocations. -/

structure WorkerSt where
  conn : ConnectionState
  batch_count : Nat
  error_count : Nat
deriving DecidableEq

/-- `FlushWorker._send_spooled_events` (the syncer's send callback). -/
def sendSpooledEvents (cfg : WorkerConfig) (oracle : Nat → SendOutcome) (now : ℚ)
    (w : WorkerSt) (events : List Event) : Bool × WorkerSt × Nat :=
  if events.isEmpty then (true, w, 0)
  else
    let r := sendBatch cfg oracle now w.conn w.batch_count w.error_count events
      (spooledStats events)
    (r.success, ⟨r.conn, r.batch_count, r.error_count⟩, r.sent.length)

/-- `FlushWorker._spool_events`: spool each event, then `flush_all`.
`names i` is the generated file name for the `i`-th newly created
active file. -/
def spoolList (now : ℚ) (names : Nat → String) :
    DiskSpool → List Event → Nat → DiskSpool
  | s, [], _ => s
  | s, e :: rest, i => spoolList now names (s.spool e now (names i)).1 rest (i + 1)

def spoolEventsOp (s : DiskSpool) (events : List Event) (now : ℚ)
    (names : Nat → String) : DiskSpool :=
  (spoolList now names s events 0).flushAll now

structure SysSt where
  w : WorkerSt
  spool : DiskSpool
deriving DecidableEq

/-- One transport-facing operation of the worker/syncer pair. -/
inductive SysOp where
  | doFlush (events : List Event) (stats : BatchStats) (oracle : Nat → SendOutcome)
      (now : ℚ) (names : Nat → String)
  | syncTick (oracles : Nat → Nat → SendOutcome) (now : ℚ)

/-- `FlushWorker._do_flush` after `batcher.flush()` returned
`events`/`stats`: early-return when empty, else `_send_batch`, spooling
the batch on failure. -/
def sysFlush (cfg : WorkerConfig) (st : SysSt) (events : List Event) (stats : BatchStats)
    (oracle : Nat → SendOutcome) (now : ℚ) (names : Nat → String) : SysSt × Nat :=
  if events.isEmpty then (st, 0)
  else
    let r := sendBatch cfg oracle now st.w.conn st.w.batch_count st.w.error_count events stats
    let sp := if r.success = false ∧ cfg.spool_enabled = true then
        spoolEventsOp st.spool events now names
      else st.spool
    (⟨⟨r.conn, r.batch_count, r.error_count⟩, sp⟩, r.sent.length)

/-- One iteration of `SpoolSyncer._run`: skip entirely while the
connection is offline, else run `_sync_pending` with
`_send_spooled_events` (retention cleanup touches no claim-relevant
state and is omitted).  `oracles k` is the transport oracle of the
`k`-th send call of the pass. -/
def sysTick (cfg : WorkerConfig) (st : SysSt) (oracles : Nat → Nat → SendOutcome)
    (now : ℚ) : SysSt × Nat :=
  if st.w.conn.online then
    let send := fun (p : WorkerSt × Nat) evs =>
      let r := sendSpooledEvents cfg (oracles p.2) now p.1 evs
      (r.1, (r.2.1, p.2 + 1), r.2.2)
    let res := syncPendingPass send now st.spool (st.w, 0)
    (⟨res.2.1.1, res.1⟩, res.2.2)
  else (st, 0)

def sysStep (cfg : WorkerConfig) (st : SysSt) : SysOp → SysSt × Nat
  | .doFlush events stats oracle now names => sysFlush cfg st events stats oracle now names
  | .syncTick oracles now => sysTick cfg st oracles now

/-- Run a sequence of operations, accumulating transport invocations. -/
def sysRun (cfg : WorkerConfig) (st : SysSt) : List SysOp → SysSt × Nat
  | [] => (st, 0)
  | op :: ops =>
    let s := sysStep cfg st op
    let r := sysRun cfg s.1 ops
    (r.1, s.2 + r.2)

/-! # Theorems -/

/-! ## Claim C2: connection state machine -/

/-- C2: `ConnectionState` starts Online with zero consecutive failures;
`record_success` always sets Online and resets the failure count, so
after any successful send `consecutive_failures = 0` and
`is_online = true`; `record_failure` increments the count and the
resulting state is Online exactly when it was Online before and the
incremented count is still below 3 — i.e. Online transitions to
Offline exactly when the count reaches 3 or more, and Offline is never
left by a failure.  (`is_online`, `consecutive_failures` and `to_dict`
are pure reads; no other operation of the class mutates state.) -/
theorem connection_state_machine :
    (ConnectionState.init.online = true ∧ ConnectionState.init.consecutive_failures = 0)
    ∧ (∀ s : ConnectionState,
        s.record_success.online = true ∧ s.record_success.consecutive_failures = 0)
    ∧ (∀ s : ConnectionState,
        s.record_failure.consecutive_failures = s.consecutive_failures + 1
        ∧ s.record_failure.online
            = (s.online && decide (s.consecutive_failures + 1 < 3))) := by
  refine ⟨⟨rfl, rfl⟩, fun s => ⟨rfl, rfl⟩, fun s => ⟨rfl, ?_⟩⟩
  rcases s with ⟨o, cf⟩
  show (if 3 ≤ cf + 1 ∧ o = true then false else o) = (o && decide (cf + 1 < 3))
  cases o
  · simp
  · by_cases h : 3 ≤ cf + 1
    · rw [if_pos ⟨h, rfl⟩]
      simp only [Bool.true_and]
      rw [decide_eq_false (by omega)]
    · rw [if_neg (by tauto)]
      simp only [Bool.true_and]
      rw [decide_eq_true (by omega)]

/-! ## Claim C3: queue conservation -/

/-- Single-step form of the conservation argument. -/
theorem qstep_conserves (q : EventQueue) (op : QOp) :
    (qstep q op).1.size + (qstep q op).1.dropped_count + (qstep q op).2.length
      = q.size + q.dropped_count
        + (match op with | .put _ => 1 | _ => 0) := by
  rcases op with e | ⟨m, a⟩ | _
  · rcases q with ⟨cap, items, dc⟩
    by_cases h : 0 < cap ∧ cap ≤ items.length
    · simp [qstep, EventQueue.put, h, EventQueue.size]
      omega
    · simp [qstep, EventQueue.put, h, EventQueue.size]
      omega
  · rcases q with ⟨cap, items, dc⟩
    have hn : min (min m a) items.length ≤ items.length := Nat.min_le_right _ _
    simp [qstep, EventQueue.get_batch, EventQueue.size]
    omega
  · rcases q with ⟨cap, items, dc⟩
    simp [qstep, EventQueue.drain, EventQueue.size]
    omega

/-- Generalised conservation over any starting state. -/
theorem qrun_conserves (ops : List QOp) (q : EventQueue) :
    (qrun q ops).1.size + (qrun q ops).1.dropped_count + (qrun q ops).2
      = q.size + q.dropped_count + offeredCount ops := by
  induction ops generalizing q with
  | nil => simp [qrun, offeredCount]
  | cons op ops ih =>
    have hstep := qstep_conserves q op
    have hih := ih (qstep q op).1
    rcases op with e | ⟨m, a⟩ | _ <;>
      simp [qrun, offeredCount, List.countP_cons] at hstep hih ⊢ <;> omega

/-- C3: for every sequence of `put`, `get_batch` and `drain` operations
on an `EventQueue` (started empty at any capacity), the final
`size + dropped_count` plus the total number of events returned by all
`get_batch`/`drain` calls equals the number of events offered to
`put`.  Quantifying over all operation sequences covers every
intermediate point of a longer run. -/
theorem queue_conservation (cap : Nat) (ops : List QOp) :
    (qrun (EventQueue.init cap) ops).1.size
      + (qrun (EventQueue.init cap) ops).1.dropped_count
      + (qrun (EventQueue.init cap) ops).2
      = offeredCount ops := by
  have := qrun_conserves ops (EventQueue.init cap)
  simpa [EventQueue.init, EventQueue.size] using this

/-! ## Claim C9: `put` drop semantics -/

/-- C9 counterexample: at capacity 0 the size (0) equals the capacity,
yet `put` accepts the event and drops nothing — `queue.Queue` treats
`maxsize ≤ 0` as unbounded.  The claim as stated therefore fails for a
zero-capacity queue. -/
theorem queue_put_capacity_zero_accepts :
    (EventQueue.init 0).size = (EventQueue.init 0).maxsize
    ∧ ((EventQueue.init 0).put default).2 = true
    ∧ ((EventQueue.init 0).put default).1.dropped_count = 0
    ∧ ((EventQueue.init 0).put default).1.size = 1 := by
  refine ⟨rfl, ?_, ?_, ?_⟩ <;> simp [EventQueue.init, EventQueue.put, EventQueue.size]

/-- C9 (amended to positive capacity): `put` is a total function (never
raises, never blocks); for a queue of positive capacity holding at
most `capacity` items, `put` returns `false` and increments
`dropped_count` by exactly one, leaving the contents untouched, exactly
when `size = capacity`; otherwise it appends the event and returns
`true` with `dropped_count` unchanged.  (The `size ≤ capacity` premise
holds in every state reachable from an empty queue.) -/
theorem queue_put_spec (q : EventQueue) (e : Event) (hpos : 0 < q.maxsize)
    (hle : q.items.length ≤ q.maxsize) :
    (q.items.length = q.maxsize →
      (q.put e).2 = false
      ∧ (q.put e).1.dropped_count = q.dropped_count + 1
      ∧ (q.put e).1.items = q.items)
    ∧ (q.items.length < q.maxsize →
      (q.put e).2 = true
      ∧ (q.put e).1.dropped_count = q.dropped_count
      ∧ (q.put e).1.items = q.items ++ [e]) := by
  constructor
  · intro hfull
    have hcond : 0 < q.maxsize ∧ q.maxsize ≤ q.items.length := ⟨hpos, le_of_eq hfull.symm⟩
    simp [EventQueue.put, hcond]
  · intro hlt
    have hcond : ¬(0 < q.maxsize ∧ q.maxsize ≤ q.items.length) := by
      rintro ⟨-, hge⟩; omega
    simp [EventQueue.put, hcond]

/-- Witness for `queue_put_spec` at a concrete full queue of
capacity 1. -/
theorem queue_put_spec_witness :
    ((⟨1, [default], 0⟩ : EventQueue).put default).2 = false
    ∧ ((⟨1, [default], 0⟩ : EventQueue).put default).1.dropped_count = 0 + 1
    ∧ ((⟨1, [default], 0⟩ : EventQueue).put default).1.items = [default] :=
  (queue_put_spec ⟨1, [default], 0⟩ default (by decide) (by decide)).1 (by decide)

/-! ## Claim C5: offline short-circuit of `_send_batch` -/

/-- C5: for a non-empty batch, when the connection is Offline and the
spool is enabled, `_send_batch` returns `false` immediately: no
transport attempt is made (`sent = []`), no retry sleep happens, and
neither the connection state nor the counters change. -/
theorem send_batch_offline_skips (cfg : WorkerConfig) (oracle : Nat → SendOutcome)
    (now : ℚ) (conn : ConnectionState) (bc ec : Nat) (events : List Event)
    (stats : BatchStats) (hne : events ≠ []) (hoff : conn.online = false)
    (hsp : cfg.spool_enabled = true) :
    sendBatch cfg oracle now conn bc ec events stats
      = { success := false, conn := conn, batch_count := bc, error_count := ec
          sent := [], sleeps := [] } := by
  unfold sendBatch
  rw [if_neg (by simp [List.isEmpty_iff, hne]), if_pos ⟨hoff, hsp⟩]

/-- Witness for `send_batch_offline_skips` at a concrete offline
state. -/
theorem send_batch_offline_skips_witness :
    sendBatch ⟨3, 1000, 2, 30000, true⟩ (fun _ => .ok) 0 ⟨false, 3⟩ 0 0 [default]
        BatchStats.initial
      = { success := false, conn := ⟨false, 3⟩, batch_count := 0, error_count := 0
          sent := [], sleeps := [] } :=
  send_batch_offline_skips _ _ _ _ _ _ _ _ (List.cons_ne_nil _ _) rfl rfl

/-! ## Claim C4: retry loop of `_send_batch` -/

/-- Shifting the backoff recurrence by one step. -/
theorem delaySeq_shift (d b M : ℚ) (n : Nat) :
    delaySeq d b M (n + 1) = delaySeq (min (d * b) M) b M n := by
  induction n with
  | zero => rfl
  | succ n ih =>
    show min (delaySeq d b M (n + 1) * b) M = _
    rw [ih]
    rfl

/-- Unfolding: successful attempt. -/
theorem retryLoop_ok (oracle : Nat → SendOutcome) (b M : ℚ) (payload : BatchPayload)
    (i fuel : Nat) (d : ℚ) (conn : ConnectionState) (bc ec : Nat)
    (h : oracle i = .ok) :
    retryLoop oracle b M payload i fuel d conn bc ec
      = { success := true, conn := conn.record_success, batch_count := bc + 1
          error_count := ec, sent := [payload], sleeps := [] } :=
  retryLoop.eq_1 _ _ _ _ _ _ _ _ _ _ h

/-- Unfolding: retryable failure with fuel left. -/
theorem retryLoop_retry (oracle : Nat → SendOutcome) (b M : ℚ) (payload : BatchPayload)
    (i fuel : Nat) (d : ℚ) (conn : ConnectionState) (bc ec : Nat)
    (h : oracle i = .err true) :
    retryLoop oracle b M payload i (fuel + 1) d conn bc ec
      = { success := (retryLoop oracle b M payload (i + 1) fuel (min (d * b) M)
            conn.record_failure bc ec).success
          conn := (retryLoop oracle b M payload (i + 1) fuel (min (d * b) M)
            conn.record_failure bc ec).conn
          batch_count := (retryLoop oracle b M payload (i + 1) fuel (min (d * b) M)
            conn.record_failure bc ec).batch_count
          error_count := (retryLoop oracle b M payload (i + 1) fuel (min (d * b) M)
            conn.record_failure bc ec).error_count
          sent := payload :: (retryLoop oracle b M payload (i + 1) fuel (min (d * b) M)
            conn.record_failure bc ec).sent
          sleeps := d :: (retryLoop oracle b M payload (i + 1) fuel (min (d * b) M)
            conn.record_failure bc ec).sleeps } :=
  retryLoop.eq_2 _ _ _ _ _ _ _ _ _ _ h

/-- Unfolding: failure with no fuel left. -/
theorem retryLoop_err_zero (oracle : Nat → SendOutcome) (b M : ℚ) (payload : BatchPayload)
    (i : Nat) (d : ℚ) (conn : ConnectionState) (bc ec : Nat) (rb : Bool)
    (h : oracle i = .err rb) :
    retryLoop oracle b M payload i 0 d conn bc ec
      = { success := false, conn := conn.record_failure, batch_count := bc
          error_count := ec + 1, sent := [payload], sleeps := [] } :=
  retryLoop.eq_3 _ _ _ _ _ _ _ _ _ _ _ h
    (fun _ _ hx => Nat.succ_ne_zero _ hx.symm)

/-- Unfolding: non-retryable failure. -/
theorem retryLoop_err_false (oracle : Nat → SendOutcome) (b M : ℚ) (payload : BatchPayload)
    (i fuel : Nat) (d : ℚ) (conn : ConnectionState) (bc ec : Nat)
    (h : oracle i = .err false) :
    retryLoop oracle b M payload i fuel d conn bc ec
      = { success := false, conn := conn.record_failure, batch_count := bc
          error_count := ec + 1, sent := [payload], sleeps := [] } :=
  retryLoop.eq_3 _ _ _ _ _ _ _ _ _ _ _ h
    (fun _ hrt _ => Bool.noConfusion hrt)

/-- Full characterisation of the retry loop: attempt count bounds, the
payload repeated unchanged at every attempt, the backoff sleep
sequence, and the success/failure outcome including the connection
updates (one `record_failure` per failed attempt, `record_success`
after the successful one). -/
theorem retryLoop_spec (oracle : Nat → SendOutcome) (b M : ℚ) (payload : BatchPayload) :
    ∀ (fuel i : Nat) (d : ℚ) (conn : ConnectionState) (bc ec : Nat),
      1 ≤ (retryLoop oracle b M payload i fuel d conn bc ec).sent.length
      ∧ (retryLoop oracle b M payload i fuel d conn bc ec).sent.length ≤ fuel + 1
      ∧ (retryLoop oracle b M payload i fuel d conn bc ec).sent
          = List.replicate (retryLoop oracle b M payload i fuel d conn bc ec).sent.length payload
      ∧ (retryLoop oracle b M payload i fuel d conn bc ec).sleeps
          = (List.range ((retryLoop oracle b M payload i fuel d conn bc ec).sent.length - 1)).map
              (delaySeq d b M)
      ∧ ((retryLoop oracle b M payload i fuel d conn bc ec).success = true →
          oracle (i + ((retryLoop oracle b M payload i fuel d conn bc ec).sent.length - 1)) = .ok
          ∧ (∀ j < (retryLoop oracle b M payload i fuel d conn bc ec).sent.length - 1,
              oracle (i + j) = .err true)
          ∧ (retryLoop oracle b M payload i fuel d conn bc ec).conn
              = (ConnectionState.record_failure^[(retryLoop oracle b M payload i fuel d conn bc ec).sent.length - 1] conn).record_success
          ∧ (retryLoop oracle b M payload i fuel d conn bc ec).batch_count = bc + 1
          ∧ (retryLoop oracle b M payload i fuel d conn bc ec).error_count = ec)
      ∧ ((retryLoop oracle b M payload i fuel d conn bc ec).success = false →
          (∀ j < (retryLoop oracle b M payload i fuel d conn bc ec).sent.length,
            ∃ rb, oracle (i + j) = .err rb)
          ∧ (retryLoop oracle b M payload i fuel d conn bc ec).conn
              = ConnectionState.record_failure^[(retryLoop oracle b M payload i fuel d conn bc ec).sent.length] conn
          ∧ (retryLoop oracle b M payload i fuel d conn bc ec).batch_count = bc
          ∧ (retryLoop oracle b M payload i fuel d conn bc ec).error_count = ec + 1
          ∧ (oracle (i + ((retryLoop oracle b M payload i fuel d conn bc ec).sent.length - 1)) = .err false
             ∨ (retryLoop oracle b M payload i fuel d conn bc ec).sent.length = fuel + 1)) := by
  intro fuel
  induction fuel with
  | zero =>
    intro i d conn bc ec
    rcases hoc : oracle i with _ | rb
    · rw [retryLoop_ok oracle b M payload i 0 d conn bc ec hoc]
      refine ⟨by simp, by simp, by simp, by simp,
        fun _ => ⟨by simpa using hoc, ?_, by simp, rfl, rfl⟩,
        fun hf => by simp at hf⟩
      intro j hj
      simp at hj
    · rw [retryLoop_err_zero oracle b M payload i d conn bc ec rb hoc]
      refine ⟨by simp, by simp, by simp, by simp, fun hs => by simp at hs,
        fun _ => ⟨?_, by simp, rfl, rfl, Or.inr rfl⟩⟩
      intro j hj
      simp only [List.length_cons, List.length_nil, Nat.lt_succ_iff, Nat.le_zero] at hj
      subst hj
      exact ⟨rb, by simpa using hoc⟩
  | succ fuel ih =>
    intro i d conn bc ec
    rcases hoc : oracle i with _ | rb
    · rw [retryLoop_ok oracle b M payload i (fuel + 1) d conn bc ec hoc]
      refine ⟨by simp, by simp, by simp, by simp,
        fun _ => ⟨by simpa using hoc, ?_, by simp, rfl, rfl⟩,
        fun hf => by simp at hf⟩
      intro j hj
      simp at hj
    · cases rb with
      | false =>
        rw [retryLoop_err_false oracle b M payload i (fuel + 1) d conn bc ec hoc]
        refine ⟨by simp, by simp, by simp, by simp, fun hs => by simp at hs,
          fun _ => ⟨?_, by simp, rfl, rfl, Or.inl (by simpa using hoc)⟩⟩
        intro j hj
        simp only [List.length_cons, List.length_nil, Nat.lt_succ_iff, Nat.le_zero] at hj
        subst hj
        exact ⟨false, by simpa using hoc⟩
      | true =>
        obtain ⟨h1, h2, hrep, hslp, hsucc, hfail⟩ :=
          ih (i + 1) (min (d * b) M) conn.record_failure bc ec
        rw [retryLoop_retry oracle b M payload i fuel d conn bc ec hoc]
        generalize hres : retryLoop oracle b M payload (i + 1) fuel (min (d * b) M)
          conn.record_failure bc ec = res at *
        dsimp only
        have hlen : (payload :: res.sent).length = res.sent.length + 1 := by simp
        refine ⟨by simp, by simpa using h2, ?_, ?_, ?_, ?_⟩
        · show payload :: res.sent = List.replicate ((payload :: res.sent).length) payload
          rw [hlen]
          rw [List.replicate_succ]
          exact congrArg _ hrep
        · show d :: res.sleeps
            = (List.range ((payload :: res.sent).length - 1)).map (delaySeq d b M)
          rw [hlen, Nat.add_sub_cancel]
          obtain ⟨m, hm⟩ : ∃ m, res.sent.length = m + 1 :=
            ⟨res.sent.length - 1, by omega⟩
          rw [hm, List.range_succ_eq_map, List.map_cons, List.map_map]
          refine congrArg₂ _ rfl ?_
          rw [hslp, hm, Nat.add_sub_cancel]
          refine List.map_congr_left fun j _ => ?_
          show delaySeq (min (d * b) M) b M j = delaySeq d b M (j + 1)
          exact (delaySeq_shift d b M j).symm
        · intro hs
          obtain ⟨ho, hall, hconn, hbc, hec⟩ := hsucc hs
          have hge := h1
          refine ⟨?_, ?_, ?_, hbc, hec⟩
          · rw [hlen, Nat.add_sub_cancel]
            have : i + res.sent.length = i + 1 + (res.sent.length - 1) := by omega
            rw [this]
            exact ho
          · intro j hj
            rw [hlen, Nat.add_sub_cancel] at hj
            match j with
            | 0 => simpa using hoc
            | j + 1 =>
              have : i + (j + 1) = i + 1 + j := by omega
              rw [this]
              exact hall j (by omega)
          · rw [hlen, Nat.add_sub_cancel, hconn]
            obtain ⟨m, hm⟩ : ∃ m, res.sent.length = m + 1 :=
              ⟨res.sent.length - 1, by omega⟩
            rw [hm, Nat.add_sub_cancel, Function.iterate_succ_apply]
        · intro hf
          obtain ⟨hall, hconn, hbc, hec, hterm⟩ := hfail hf
          refine ⟨?_, ?_, hbc, hec, ?_⟩
          · intro j hj
            rw [hlen] at hj
            match j with
            | 0 => exact ⟨true, by simpa using hoc⟩
            | j + 1 =>
              have : i + (j + 1) = i + 1 + j := by omega
              rw [this]
              exact hall j (by omega)
          · rw [hlen, hconn, Function.iterate_succ_apply]
          · rw [hlen, Nat.add_sub_cancel]
            rcases hterm with hterm | hterm
            · left
              have : i + res.sent.length = i + 1 + (res.sent.length - 1) := by omega
              rw [this]
              exact hterm
            · right
              omega

/-- C4: for a non-empty batch, `_send_batch` makes at most
`max_retries + 1` transport attempts; every attempt carries the one
payload (with its single `time.time()` timestamp) serialized before the
loop; the `i`-th retry sleep follows
`delay' = min (delay * retry_backoff, retry_max_delay_ms / 1000)`
starting from `retry_delay_ms / 1000`; on a successful attempt it calls
`record_success` (after one `record_failure` per preceding failed
attempt), increments `batch_count` and returns `true`; it returns
`false` only after a non-retryable error, after exhausting all
attempts, or on the offline short-circuit — with one `record_failure`
per failed attempt and `batch_count` unchanged. -/
theorem send_batch_retry_spec (cfg : WorkerConfig) (oracle : Nat → SendOutcome) (now : ℚ)
    (conn : ConnectionState) (bc ec : Nat) (events : List Event) (stats : BatchStats)
    (hne : events ≠ []) :
    (sendBatch cfg oracle now conn bc ec events stats).sent.length ≤ cfg.max_retries + 1
    ∧ (sendBatch cfg oracle now conn bc ec events stats).sent
        = List.replicate (sendBatch cfg oracle now conn bc ec events stats).sent.length
            (mkBatchPayload events stats now)
    ∧ (sendBatch cfg oracle now conn bc ec events stats).sleeps
        = (List.range ((sendBatch cfg oracle now conn bc ec events stats).sent.length - 1)).map
            (delaySeq (cfg.retry_delay_ms / 1000) cfg.retry_backoff
              (cfg.retry_max_delay_ms / 1000))
    ∧ ((sendBatch cfg oracle now conn bc ec events stats).success = true →
        1 ≤ (sendBatch cfg oracle now conn bc ec events stats).sent.length
        ∧ oracle ((sendBatch cfg oracle now conn bc ec events stats).sent.length - 1) = .ok
        ∧ (∀ j < (sendBatch cfg oracle now conn bc ec events stats).sent.length - 1,
            oracle j = .err true)
        ∧ (sendBatch cfg oracle now conn bc ec events stats).conn
            = (ConnectionState.record_failure^[(sendBatch cfg oracle now conn bc ec events stats).sent.length - 1] conn).record_success
        ∧ (sendBatch cfg oracle now conn bc ec events stats).batch_count = bc + 1
        ∧ (sendBatch cfg oracle now conn bc ec events stats).error_count = ec)
    ∧ ((sendBatch cfg oracle now conn bc ec events stats).success = false →
        (∀ j < (sendBatch cfg oracle now conn bc ec events stats).sent.length,
          ∃ rb, oracle j = .err rb)
        ∧ (sendBatch cfg oracle now conn bc ec events stats).conn
            = ConnectionState.record_failure^[(sendBatch cfg oracle now conn bc ec events stats).sent.length] conn
        ∧ (sendBatch cfg oracle now conn bc ec events stats).batch_count = bc
        ∧ ((sendBatch cfg oracle now conn bc ec events stats).sent = []
           ∨ oracle ((sendBatch cfg oracle now conn bc ec events stats).sent.length - 1)
               = .err false
           ∨ (sendBatch cfg oracle now conn bc ec events stats).sent.length
               = cfg.max_retries + 1)) := by
  unfold sendBatch
  rw [if_neg (by simp [List.isEmpty_iff, hne])]
  by_cases hcond : conn.online = false ∧ cfg.spool_enabled = true
  · rw [if_pos hcond]
    refine ⟨by simp, by simp, by simp, fun hs => by simp at hs,
      fun _ => ⟨?_, by simp, rfl, Or.inl rfl⟩⟩
    intro j hj
    simp at hj
  · rw [if_neg hcond]
    obtain ⟨h1, h2, hrep, hslp, hsucc, hfail⟩ :=
      retryLoop_spec oracle cfg.retry_backoff (cfg.retry_max_delay_ms / 1000)
        (mkBatchPayload events stats now) cfg.max_retries 0 (cfg.retry_delay_ms / 1000)
        conn bc ec
    refine ⟨h2, hrep, hslp, ?_, ?_⟩
    · intro hs
      obtain ⟨ho, hall, hconn, hbc, hec⟩ := hsucc hs
      exact ⟨h1, by simpa using ho, fun j hj => by simpa using hall j hj, hconn, hbc, hec⟩
    · intro hf
      obtain ⟨hall, hconn, hbc, _hec, hterm⟩ := hfail hf
      refine ⟨fun j hj => by simpa using hall j hj, hconn, hbc, ?_⟩
      rcases hterm with hterm | hterm
      · exact Or.inr (Or.inl (by simpa using hterm))
      · exact Or.inr (Or.inr hterm)

/-- Witness for `send_batch_retry_spec`: an always-retryable-failing
transport exhausts all `max_retries + 1 = 3` attempts. -/
theorem send_batch_retry_spec_witness :
    (sendBatch ⟨2, 1000, 2, 30000, true⟩ (fun _ => .err true) 0 ⟨true, 0⟩ 0 0 [default]
        BatchStats.initial).sent.length ≤ 2 + 1 :=
  (send_batch_retry_spec ⟨2, 1000, 2, 30000, true⟩ (fun _ => .err true) 0 ⟨true, 0⟩ 0 0
    [default] BatchStats.initial (List.cons_ne_nil _ _)).1

/-! ## Claim C7: spool file write/read round-trip -/

/-- `find?` over an append whose first part has no hit. -/
theorem find?_append_none {α : Type} (p : α → Bool) (l₁ l₂ : List α)
    (h : l₁.find? p = none) : (l₁ ++ l₂).find? p = l₂.find? p := by
  rw [List.find?_append, h, Option.none_or]

/-- Removing a name makes it unfindable. -/
theorem fsFind_fsRemove_self (fs : FS) (b ext : String) :
    fsFind (fsRemove fs b ext) b ext = none := by
  unfold fsRemove fsFind
  rw [List.find?_eq_none]
  intro a ha
  have h2 := List.of_mem_filter ha
  simp at h2 ⊢
  tauto

/-- An unfindable name stays unfindable under any filtering. -/
theorem fsFind_filter_none (fs : FS) (q : FileEntry → Bool) (b ext : String)
    (h : fsFind fs b ext = none) : fsFind (fs.filter q) b ext = none := by
  unfold fsFind at h ⊢
  rw [List.find?_eq_none] at h ⊢
  intro a ha
  exact h a (List.mem_of_mem_filter ha)

/-- What a fresh write makes findable. -/
theorem fsFind_fsWrite_self (fs : FS) (b ext : String) (now : ℚ) (r : SpoolRecord) :
    fsFind (fsWrite fs b ext now r) b ext = some ⟨b, ext, now, recordSize r, r⟩ := by
  unfold fsWrite fsFind
  rw [find?_append_none _ _ _ (fsFind_fsRemove_self fs b ext)]
  simp [List.find?_cons]

/-- `SpoolFile.flush` on a non-empty buffer leaves exactly the record
`{version = 1, run_id, created_at, events}` under the `.spool` name,
and no `.pending` file. -/
theorem flushFS_spec (f : SpoolFileSt) (fs : FS) (now : ℚ) (hne : f.events ≠ []) :
    fsFind (f.flushFS fs now) f.base ".spool"
      = some ⟨f.base, ".spool", now, recordSize f.record, f.record⟩
    ∧ fsFind (f.flushFS fs now) f.base ".pending" = none := by
  have hW := fsFind_fsWrite_self fs f.base ".pending" now f.record
  unfold SpoolFileSt.flushFS
  rw [if_neg (by simp [List.isEmpty_iff, hne])]
  unfold fsRename
  rw [hW]
  constructor
  · unfold fsFind
    rw [find?_append_none _ _ _ (fsFind_fsRemove_self _ f.base ".spool")]
    simp [List.find?_cons]
  · unfold fsFind
    have hrm : fsFind (fsRemove (fsWrite fs f.base ".pending" now f.record)
        f.base ".pending") f.base ".pending" = none :=
      fsFind_fsRemove_self _ f.base ".pending"
    have houter : fsFind (fsRemove (fsRemove (fsWrite fs f.base ".pending" now f.record)
        f.base ".pending") f.base ".spool") f.base ".pending" = none :=
      fsFind_filter_none _ _ _ _ hrm
    rw [find?_append_none _ _ _ houter]
    have hne' : (".spool" : String) ≠ ".pending" := by decide
    simp [List.find?_cons, hne']

/-- `foldl append` collects the event dicts in order, fixing the other
fields. -/
theorem foldl_append_fields (evs : List Event) (f0 : SpoolFileSt) :
    (evs.foldl SpoolFileSt.append f0).events = f0.events ++ evs.map eventToDict
    ∧ (evs.foldl SpoolFileSt.append f0).base = f0.base
    ∧ (evs.foldl SpoolFileSt.append f0).run_id = f0.run_id
    ∧ (evs.foldl SpoolFileSt.append f0).created_at = f0.created_at := by
  induction evs generalizing f0 with
  | nil => simp
  | cons e evs ih =>
    obtain ⟨h1, h2, h3, h4⟩ := ih (f0.append e)
    refine ⟨?_, ?_, ?_, ?_⟩
    · rw [List.foldl_cons, h1]
      simp [SpoolFileSt.append]
    · rw [List.foldl_cons, h2]
      rfl
    · rw [List.foldl_cons, h3]
      rfl
    · rw [List.foldl_cons, h4]
      rfl

/-- `EventType(t.value) = t`. -/
theorem ofValue_value (t : EventType) : EventType.ofValue t.value = some t := by
  cases t <;> rfl

/-- A written event dict reads back as the same event. -/
theorem dictToEvent_eventToDict (e : Event) : dictToEvent (eventToDict e) = some e := by
  rcases e with ⟨t, rid, ts, data⟩
  simp [dictToEvent, eventToDict, ofValue_value]

/-- The whole dict list reads back as the same event list. -/
theorem readEventsList_map (evs : List Event) :
    readEventsList (evs.map eventToDict) = some evs := by
  induction evs with
  | nil => rfl
  | cons e evs ih => simp [readEventsList, dictToEvent_eventToDict, ih]

/-- C7: appending any non-empty event sequence to a `SpoolFile` and
calling `flush` writes the record
`{version = 1, run_id, created_at, events}` via a `.pending` temp file
atomically renamed to the `.spool` name (no `.pending` file survives),
and `read_events` on the resulting `.spool` file returns the same
event sequence — type, run_id, timestamp and data — in the same
order. -/
theorem spool_file_roundtrip (base rid : String) (created now : ℚ) (evs : List Event)
    (fs : FS) (hne : evs ≠ []) :
    fsFind ((evs.foldl SpoolFileSt.append ⟨base, rid, [], 0, created⟩).flushFS fs now)
        base ".spool"
      = some ⟨base, ".spool", now, recordSize ⟨SPOOL_VERSION, rid, created, evs.map eventToDict⟩,
          ⟨SPOOL_VERSION, rid, created, evs.map eventToDict⟩⟩
    ∧ fsFind ((evs.foldl SpoolFileSt.append ⟨base, rid, [], 0, created⟩).flushFS fs now)
        base ".pending" = none
    ∧ readSpoolFS ((evs.foldl SpoolFileSt.append ⟨base, rid, [], 0, created⟩).flushFS fs now)
        base = some evs := by
  obtain ⟨h1, h2, h3, h4⟩ := foldl_append_fields evs (⟨base, rid, [], 0, created⟩ : SpoolFileSt)
  have hevne : (evs.foldl SpoolFileSt.append ⟨base, rid, [], 0, created⟩).events ≠ [] := by
    rw [h1]
    simp [hne]
  obtain ⟨hf1, hf2⟩ := flushFS_spec (evs.foldl SpoolFileSt.append ⟨base, rid, [], 0, created⟩)
    fs now hevne
  have hrec : (evs.foldl SpoolFileSt.append ⟨base, rid, [], 0, created⟩).record
      = ⟨SPOOL_VERSION, rid, created, evs.map eventToDict⟩ := by
    unfold SpoolFileSt.record
    rw [h1, h3, h4]
    rfl
  rw [h2] at hf1 hf2
  rw [hrec] at hf1
  refine ⟨hf1, hf2, ?_⟩
  unfold readSpoolFS
  rw [hf1]
  unfold readRecordEvents
  exact readEventsList_map evs

/-- Witness for `spool_file_roundtrip` at a concrete one-event file. -/
theorem spool_file_roundtrip_witness :
    readSpoolFS (([default].foldl SpoolFileSt.append ⟨"f", "r", [], 0, 0⟩).flushFS [] 0)
        "f" = some [default] :=
  (spool_file_roundtrip "f" "r" 0 0 [default] [] (List.cons_ne_nil _ _)).2.2

/-! ## Claim C6: spool admission and roll-over -/

/-- Setting a key makes it look up to the new file. -/
theorem afLookup_afSet_self (m : List (String × SpoolFileSt)) (rid : String)
    (f : SpoolFileSt) : afLookup (afSet m rid f) rid = some f := by
  unfold afSet
  by_cases h : m.any (fun p => decide (p.1 = rid)) = true
  · rw [if_pos h]
    induction m with
    | nil => simp at h
    | cons p m ih =>
      by_cases hp : p.1 = rid
      · simp [afLookup, List.find?_cons, hp]
      · have h' : m.any (fun p => decide (p.1 = rid)) = true := by
          simpa [List.any_cons, hp] using h
        simpa [afLookup, List.map_cons, List.find?_cons, hp] using ih h'
  · rw [if_neg h]
    unfold afLookup
    have hnone : m.find? (fun p => decide (p.1 = rid)) = none := by
      rw [List.find?_eq_none]
      intro a ha hc
      exact h (List.any_eq_true.mpr ⟨a, ha, hc⟩)
    rw [find?_append_none _ _ _ hnone]
    simp [List.find?_cons]

/-- Removing a key makes it look up to nothing. -/
theorem afLookup_afRemove_self (m : List (String × SpoolFileSt)) (rid : String) :
    afLookup (afRemove m rid) rid = none := by
  unfold afRemove afLookup
  have hnone : (m.filter (fun p => ¬(p.1 = rid))).find? (fun p => decide (p.1 = rid))
      = none := by
    rw [List.find?_eq_none]
    intro a ha
    have h2 := List.of_mem_filter ha
    simp at h2 ⊢
    exact h2
  rw [hnone]
  rfl

/-- C6 counterexample: the admission check of `DiskSpool.spool` reads
the cached `self._stats.pending_bytes`, not a freshly computed
on-disk total, and it refuses at `≥`, not strictly above.  First
input: the directory holds a 101-byte `.spool` file (recomputing
yields 101 > 100 = `max_total_size_bytes`) but the cache still says 0,
and `spool` accepts.  Second input: cache and disk agree at exactly
100 bytes — the computed total does not exceed the cap — yet `spool`
refuses. -/
theorem disk_spool_limit_counterexample :
    100 < ((⟨⟨1000000, 100⟩, [], ⟨0, 0, 0, 0, 0, 0⟩,
        [⟨"old", ".spool", 0, 101, ⟨1, "r", 0, []⟩⟩]⟩ : DiskSpool).updateStats).stats.pending_bytes
    ∧ ((⟨⟨1000000, 100⟩, [], ⟨0, 0, 0, 0, 0, 0⟩,
        [⟨"old", ".spool", 0, 101, ⟨1, "r", 0, []⟩⟩]⟩ : DiskSpool).spool default 0 "f").2 = true
    ∧ ¬(100 < ((⟨⟨1000000, 100⟩, [], ⟨1, 0, 100, 0, 0, 0⟩,
        [⟨"old", ".spool", 0, 100, ⟨1, "r", 0, []⟩⟩]⟩ : DiskSpool).updateStats).stats.pending_bytes)
    ∧ ((⟨⟨1000000, 100⟩, [], ⟨1, 0, 100, 0, 0, 0⟩,
        [⟨"old", ".spool", 0, 100, ⟨1, "r", 0, []⟩⟩]⟩ : DiskSpool).spool default 0 "f").2 = false := by
  refine ⟨by decide, ?_, by decide, ?_⟩ <;> decide

/-- C6 (amended to the cached, inclusive check): `spool` returns
`false` — appending nothing, changing nothing — exactly when the
cached `stats.pending_bytes` (as of the last stats refresh) has
reached `max_total_size_bytes`; otherwise it returns `true` after
appending the event to the run's active spool file (`f0`: the
existing active file, or a fresh one when none is active), and when
the file's `size_bytes` reaches `max_file_size_bytes` it is flushed
to disk as a `.spool` record and retired from the active map,
otherwise it stays active with the event appended and the disk is
untouched. -/
theorem disk_spool_write_spec (s : DiskSpool) (e : Event) (now : ℚ) (fresh : String)
    (f0 : SpoolFileSt)
    (hf0 : afLookup s.active_files e.run_id = some f0
           ∨ (afLookup s.active_files e.run_id = none
              ∧ f0 = ⟨fresh, e.run_id, [], 0, now⟩)) :
    ((s.spool e now fresh).2 = false ↔ s.config.max_total_size_bytes ≤ s.stats.pending_bytes)
    ∧ ((s.spool e now fresh).2 = false → (s.spool e now fresh).1 = s)
    ∧ ((s.spool e now fresh).2 = true →
        (s.config.max_file_size_bytes ≤ (f0.append e).size_bytes →
          afLookup (s.spool e now fresh).1.active_files e.run_id = none
          ∧ fsFind (s.spool e now fresh).1.fs f0.base ".spool"
              = some ⟨f0.base, ".spool", now, recordSize (f0.append e).record,
                  (f0.append e).record⟩
          ∧ (f0.append e).record.events = f0.events ++ [eventToDict e])
        ∧ ((f0.append e).size_bytes < s.config.max_file_size_bytes →
          afLookup (s.spool e now fresh).1.active_files e.run_id = some (f0.append e)
          ∧ (f0.append e).events = f0.events ++ [eventToDict e]
          ∧ (s.spool e now fresh).1.fs = s.fs)) := by
  have hmatch : (match afLookup s.active_files e.run_id with
      | some f => f
      | none => (⟨fresh, e.run_id, [], 0, now⟩ : SpoolFileSt)) = f0 := by
    rcases hf0 with h | ⟨h, rfl⟩ <;> rw [h]
  by_cases hlim : s.config.max_total_size_bytes ≤ s.stats.pending_bytes
  · have hspool : s.spool e now fresh = (s, false) := by
      unfold DiskSpool.spool
      rw [if_pos hlim]
    rw [hspool]
    refine ⟨by simpa using hlim, fun _ => rfl, fun hc => by simp at hc⟩
  · by_cases hsz : s.config.max_file_size_bytes ≤ (f0.append e).size_bytes
    · have hspool : s.spool e now fresh
          = ({ s with
                fs := (f0.append e).flushFS s.fs now
                active_files := afRemove s.active_files e.run_id }, true) := by
        unfold DiskSpool.spool
        rw [if_neg hlim, hmatch, if_pos hsz]
      rw [hspool]
      refine ⟨by simpa using hlim, fun hc => by simp at hc, fun _ => ⟨fun _ => ?_, fun hlt => ?_⟩⟩
      · have hne : (f0.append e).events ≠ [] := by
          simp [SpoolFileSt.append]
        obtain ⟨hf1, _⟩ := flushFS_spec (f0.append e) s.fs now hne
        exact ⟨afLookup_afRemove_self _ _, hf1, rfl⟩
      · omega
    · have hspool : s.spool e now fresh
          = ({ s with active_files := afSet s.active_files e.run_id (f0.append e) }, true) := by
        unfold DiskSpool.spool
        rw [if_neg hlim, hmatch, if_neg hsz]
      rw [hspool]
      refine ⟨by simpa using hlim, fun hc => by simp at hc, fun _ => ⟨fun hge => ?_, fun _ => ?_⟩⟩
      · omega
      · exact ⟨afLookup_afSet_self _ _ _, rfl, rfl⟩

/-! ## Claim C8: one syncer pass -/

/-- The per-file loop with the counter-instantiated send callback
equals its declarative description: the planned files get marked
synced in order, and one send call happens per non-empty readable file
up to and including the first failure. -/
theorem syncFiles_counter_spec (oracle : Nat → Bool) (now : ℚ) (files : List FileEntry) :
    ∀ (s : DiskSpool) (k : Nat),
      syncFiles (fun k _ => (oracle k, k + 1, 1)) now files s k
        = ((plannedSync oracle k files).foldl (fun t f => t.markSynced f.base now) s,
           k + sendCallCount oracle k files,
           sendCallCount oracle k files) := by
  induction files with
  | nil =>
    intro s k
    rfl
  | cons f rest ih =>
    intro s k
    cases hre : readRecordEvents f.content with
    | none => simp [syncFiles, plannedSync, sendCallCount, hre, ih]
    | some evs =>
      cases evs with
      | nil => simp [syncFiles, plannedSync, sendCallCount, hre, ih]
      | cons e es =>
        cases hk : oracle k with
        | true =>
          simp [syncFiles, plannedSync, sendCallCount, hre, hk, ih]
          all_goals omega
        | false =>
          simp [syncFiles, plannedSync, sendCallCount, hre, hk]

/-- Counters and renames of a mark-synced fold. -/
theorem foldl_markSynced_fields (now : ℚ) (L : List FileEntry) :
    ∀ s : DiskSpool,
      (L.foldl (fun t f => t.markSynced f.base now) s).stats.total_synced
          = s.stats.total_synced + L.length
      ∧ (L.foldl (fun t f => t.markSynced f.base now) s).stats.last_sync_time
          = (if L.isEmpty then s.stats.last_sync_time else now)
      ∧ (L.foldl (fun t f => t.markSynced f.base now) s).fs
          = L.foldl (fun fs f => fsRename fs f.base ".spool" ".done") s.fs
      ∧ (L.foldl (fun t f => t.markSynced f.base now) s).config = s.config
      ∧ (L.foldl (fun t f => t.markSynced f.base now) s).active_files = s.active_files := by
  induction L with
  | nil =>
    intro s
    exact ⟨by simp, by simp, rfl, rfl, rfl⟩
  | cons f L ih =>
    intro s
    obtain ⟨h1, h2, h3, h4, h5⟩ := ih (s.markSynced f.base now)
    refine ⟨?_, ?_, ?_, ?_, ?_⟩
    · rw [List.foldl_cons, h1]
      simp [DiskSpool.markSynced]
      omega
    · rw [List.foldl_cons, h2]
      by_cases hL : L.isEmpty <;> simp [DiskSpool.markSynced, hL]
    · rw [List.foldl_cons, h3]
      rfl
    · rw [List.foldl_cons, h4]
      rfl
    · rw [List.foldl_cons, h5]
      rfl

/-- `get_pending_files` returns an mtime-sorted list. -/
theorem getPendingFiles_sorted (fs : FS) :
    List.Pairwise (fun a b => a.mtime ≤ b.mtime) (getPendingFiles fs) := by
  have h := @List.sorted_mergeSort FileEntry
    (fun a b => decide (a.mtime ≤ b.mtime))
    (fun a b c hab hbc => by
      simp only [decide_eq_true_eq] at *
      exact le_trans hab hbc)
    (fun a b => by
      simp only [Bool.or_eq_true, decide_eq_true_eq]
      exact le_total _ _)
    (fs.filter (fun f => f.ext = ".spool"))
  exact h.imp (fun hx => of_decide_eq_true hx)

/-- C8: in one syncer pass the pending `.spool` files are processed in
mtime-ascending order (the processed list is sorted and is a
permutation of the pending files); the pass equals its declarative
description `plannedSync`: files that read empty are marked completed
and skipped, a successfully sent file is renamed `.spool` → `.done`
(with `total_synced` incremented once per completed file and
`last_sync_time` stamped whenever at least one file completed), and on
the first failed send the pass stops — exactly the planned prefix is
renamed and exactly `sendCallCount` send calls are made. -/
theorem syncer_pass_spec (oracle : Nat → Bool) (now : ℚ) (s : DiskSpool) :
    List.Pairwise (fun a b => a.mtime ≤ b.mtime) (getPendingFiles s.fs)
    ∧ (getPendingFiles s.fs).Perm (s.fs.filter (fun f => f.ext = ".spool"))
    ∧ syncPendingPass (fun k _ => (oracle k, k + 1, 1)) now s 0
        = ((plannedSync oracle 0 (getPendingFiles s.fs)).foldl
             (fun t f => t.markSynced f.base now) s,
           sendCallCount oracle 0 (getPendingFiles s.fs),
           sendCallCount oracle 0 (getPendingFiles s.fs))
    ∧ ((plannedSync oracle 0 (getPendingFiles s.fs)).foldl
         (fun t f => t.markSynced f.base now) s).stats.total_synced
        = s.stats.total_synced + (plannedSync oracle 0 (getPendingFiles s.fs)).length
    ∧ ((plannedSync oracle 0 (getPendingFiles s.fs)).foldl
         (fun t f => t.markSynced f.base now) s).stats.last_sync_time
        = (if (plannedSync oracle 0 (getPendingFiles s.fs)).isEmpty then
             s.stats.last_sync_time else now)
    ∧ ((plannedSync oracle 0 (getPendingFiles s.fs)).foldl
         (fun t f => t.markSynced f.base now) s).fs
        = (plannedSync oracle 0 (getPendingFiles s.fs)).foldl
            (fun fs f => fsRename fs f.base ".spool" ".done") s.fs := by
  obtain ⟨h1, h2, h3, _h4, _h5⟩ :=
    foldl_markSynced_fields now (plannedSync oracle 0 (getPendingFiles s.fs)) s
  refine ⟨getPendingFiles_sorted s.fs, List.mergeSort_perm _ _, ?_, h1, h2, h3⟩
  have := syncFiles_counter_spec oracle now (getPendingFiles s.fs) s 0
  simpa [syncPendingPass] using this

/-! ## Claim C10: offline is absorbing and transport-free -/

/-- While offline with the spool enabled, `_send_batch` touches
nothing: no transport attempt, connection and counters unchanged,
result `false` for a non-empty batch (`true` only for the empty
early-return). -/
theorem sendBatch_offline_inert (cfg : WorkerConfig) (oracle : Nat → SendOutcome)
    (now : ℚ) (conn : ConnectionState) (bc ec : Nat) (events : List Event)
    (stats : BatchStats) (hsp : cfg.spool_enabled = true) (hoff : conn.online = false) :
    (sendBatch cfg oracle now conn bc ec events stats).conn = conn
    ∧ (sendBatch cfg oracle now conn bc ec events stats).sent = []
    ∧ (sendBatch cfg oracle now conn bc ec events stats).batch_count = bc
    ∧ (sendBatch cfg oracle now conn bc ec events stats).error_count = ec
    ∧ (sendBatch cfg oracle now conn bc ec events stats).success = events.isEmpty := by
  unfold sendBatch
  by_cases he : events.isEmpty = true
  · rw [if_pos he, he]
    exact ⟨rfl, rfl, rfl, rfl, rfl⟩
  · rw [if_neg he, if_pos ⟨hoff, hsp⟩]
    refine ⟨rfl, rfl, rfl, rfl, ?_⟩
    simp only [Bool.not_eq_true] at he
    rw [he]

/-- C10: with the spool enabled, from any state whose connection is
Offline, no sequence of flush-worker sends (`_do_flush`) and syncer
iterations ever invokes `transport.send_batch`, and the connection
never returns Online: `_send_batch` returns before the transport call,
the syncer's loop skips the pass entirely while offline (its replay
callback `_send_spooled_events` would reach the same `_send_batch`
short-circuit), and since `record_success` is only called after a
successful transport invocation, the state stays Offline forever. -/
theorem offline_stays_offline_no_transport (cfg : WorkerConfig)
    (hsp : cfg.spool_enabled = true) (ops : List SysOp) (st : SysSt)
    (hoff : st.w.conn.online = false) :
    (sysRun cfg st ops).1.w.conn.online = false ∧ (sysRun cfg st ops).2 = 0 := by
  induction ops generalizing st with
  | nil => exact ⟨hoff, rfl⟩
  | cons op ops ih =>
    have hstep : (sysStep cfg st op).1.w.conn.online = false
        ∧ (sysStep cfg st op).2 = 0 := by
      cases op with
      | doFlush events stats oracle now names =>
        simp only [sysStep, sysFlush]
        by_cases he : events.isEmpty = true
        · rw [if_pos he]
          exact ⟨hoff, rfl⟩
        · rw [if_neg he]
          obtain ⟨h1, h2, _, _, _⟩ := sendBatch_offline_inert cfg oracle now st.w.conn
            st.w.batch_count st.w.error_count events stats hsp hoff
          refine ⟨?_, ?_⟩
          · show (sendBatch cfg oracle now st.w.conn st.w.batch_count st.w.error_count
              events stats).conn.online = false
            rw [h1]
            exact hoff
          · show (sendBatch cfg oracle now st.w.conn st.w.batch_count st.w.error_count
              events stats).sent.length = 0
            rw [h2]
            rfl
      | syncTick oracles now =>
        simp only [sysStep, sysTick]
        rw [if_neg (by simp [hoff])]
        exact ⟨hoff, rfl⟩
    obtain ⟨ih1, ih2⟩ := ih (sysStep cfg st op).1 hstep.1
    refine ⟨ih1, ?_⟩
    show (sysStep cfg st op).2 + (sysRun cfg (sysStep cfg st op).1 ops).2 = 0
    rw [hstep.2, ih2]

/-- Witness for `offline_stays_offline_no_transport`: a flush of one
event followed by a syncer tick, from a concrete offline state. -/
theorem offline_stays_offline_witness :
    (sysRun ⟨3, 1000, 2, 30000, true⟩
        ⟨⟨⟨false, 3⟩, 0, 0⟩, ⟨⟨1000, 100⟩, [], ⟨0, 0, 0, 0, 0, 0⟩, []⟩⟩
        [.doFlush [default] BatchStats.initial (fun _ => .ok) 0 (fun _ => "f"),
         .syncTick (fun _ _ => .ok) 0]).1.w.conn.online = false
    ∧ (sysRun ⟨3, 1000, 2, 30000, true⟩
        ⟨⟨⟨false, 3⟩, 0, 0⟩, ⟨⟨1000, 100⟩, [], ⟨0, 0, 0, 0, 0, 0⟩, []⟩⟩
        [.doFlush [default] BatchStats.initial (fun _ => .ok) 0 (fun _ => "f"),
         .syncTick (fun _ _ => .ok) 0]).2 = 0 :=
  offline_stays_offline_no_transport ⟨3, 1000, 2, 30000, true⟩ rfl
    [.doFlush [default] BatchStats.initial (fun _ => .ok) 0 (fun _ => "f"),
     .syncTick (fun _ _ => .ok) 0]
    ⟨⟨⟨false, 3⟩, 0, 0⟩, ⟨⟨1000, 100⟩, [], ⟨0, 0, 0, 0, 0, 0⟩, []⟩⟩ rfl

/-- Witness for `disk_spool_write_spec`: an empty spool below its cap
accepts an event into a fresh active file. -/
theorem disk_spool_write_spec_witness :
    afLookup (((⟨⟨1000, 100⟩, [], ⟨0, 0, 0, 0, 0, 0⟩, []⟩ : DiskSpool).spool default 0 "f").1.active_files) ""
      = some ((⟨"f", "", [], 0, 0⟩ : SpoolFileSt).append default)
    ∧ ((⟨"f", "", [], 0, 0⟩ : SpoolFileSt).append default).events
        = [] ++ [eventToDict default]
    ∧ ((⟨⟨1000, 100⟩, [], ⟨0, 0, 0, 0, 0, 0⟩, []⟩ : DiskSpool).spool default 0 "f").1.fs = [] :=
  ((disk_spool_write_spec ⟨⟨1000, 100⟩, [], ⟨0, 0, 0, 0, 0, 0⟩, []⟩ default 0 "f"
      ⟨"f", "", [], 0, 0⟩ (Or.inr ⟨rfl, rfl⟩)).2.2 (by decide)).2 (by decide)

/-! ## Claim C1: batcher coalescing

Spec-side lemmas about `keepFirsts` / `lastSame` / `specCoalesce`,
then the simulation invariant tying them to `AdaptiveBatcher.add`. -/

/-- Two events share an identity iff a common key exists. -/
theorem sameKey_iff (cfg : BatchConfig) (a b : Event) :
    sameKey cfg a b = true ↔ ∃ k, ckey cfg a = some k ∧ ckey cfg b = some k := by
  unfold sameKey
  cases ha : ckey cfg a with
  | none => simp
  | some k =>
    cases hb : ckey cfg b with
    | none => simp
    | some k' =>
      simp only [decide_eq_true_eq]
      constructor
      · rintro rfl
        exact ⟨k, rfl, rfl⟩
      · rintro ⟨k'', hk, hk'⟩
        cases hk
        exact (Option.some_injective _ hk').symm

theorem sameKey_symm (cfg : BatchConfig) (a b : Event) :
    sameKey cfg a b = sameKey cfg b a := by
  unfold sameKey
  cases ckey cfg a with
  | none => cases ckey cfg b <;> rfl
  | some k =>
    cases ckey cfg b with
    | none => rfl
    | some k' => simp [eq_comm]

theorem sameKey_trans (cfg : BatchConfig) {a x e : Event}
    (h1 : sameKey cfg a x = true) (h2 : sameKey cfg x e = true) :
    sameKey cfg a e = true := by
  rw [sameKey_iff] at *
  obtain ⟨k, ha, hx⟩ := h1
  obtain ⟨k', hx', he⟩ := h2
  rw [hx] at hx'
  cases Option.some_injective _ hx'
  exact ⟨k, ha, he⟩

/-- An event with identity `k` relates by `sameKey` exactly to the
events of identity `k`. -/
theorem sameKey_of_keys {cfg : BatchConfig} {a b : Event} {k : CKey}
    (ha : ckey cfg a = some k) (hb : ckey cfg b = some k) :
    sameKey cfg a b = true :=
  (sameKey_iff cfg a b).mpr ⟨k, ha, hb⟩

theorem keys_of_sameKey {cfg : BatchConfig} {a b : Event} {k : CKey}
    (h : sameKey cfg a b = true) (ha : ckey cfg a = some k) :
    ckey cfg b = some k := by
  obtain ⟨k', ha', hb'⟩ := (sameKey_iff cfg a b).mp h
  rw [ha] at ha'
  cases Option.some_injective _ ha'
  exact hb'

/-- Unfolding `keepFirsts` at a cons cell. -/
theorem keepFirsts_cons (cfg : BatchConfig) (e : Event) (l : List Event) :
    keepFirsts cfg (e :: l) = e :: keepFirsts cfg (l.filter (fun x => !(sameKey cfg e x))) := by
  rw [keepFirsts]

/-- Members of `keepFirsts` come from the list. -/
theorem keepFirsts_subset (cfg : BatchConfig) :
    ∀ (n : Nat) (es : List Event), es.length ≤ n →
      ∀ x ∈ keepFirsts cfg es, x ∈ es := by
  intro n
  induction n with
  | zero =>
    intro es hle x hx
    have hnil : es = [] := List.eq_nil_of_length_eq_zero (Nat.le_zero.mp hle)
    subst hnil
    simp [keepFirsts] at hx
  | succ n ih =>
    intro es hle x hx
    cases es with
    | nil => simp [keepFirsts] at hx
    | cons a l =>
      rw [keepFirsts_cons] at hx
      rw [List.mem_cons] at hx
      rcases hx with rfl | hx
      · exact List.mem_cons_self _ _
      · right
        have hlen : (l.filter (fun x => !(sameKey cfg a x))).length ≤ n := by
          have := List.length_filter_le (fun x => !(sameKey cfg a x)) l
          simp at hle
          omega
        exact List.mem_of_mem_filter (ih _ hlen x hx)

/-- Every identity present in the list survives into `keepFirsts`. -/
theorem keepFirsts_keys_complete (cfg : BatchConfig) :
    ∀ (n : Nat) (es : List Event), es.length ≤ n →
      ∀ (k : CKey) (x : Event), x ∈ es → ckey cfg x = some k →
        ∃ y ∈ keepFirsts cfg es, ckey cfg y = some k := by
  intro n
  induction n with
  | zero =>
    intro es hle k x hx _
    rw [List.eq_nil_of_length_eq_zero (Nat.le_zero.mp hle)] at hx
    simp at hx
  | succ n ih =>
    intro es hle k x hx hk
    cases es with
    | nil => simp at hx
    | cons a l =>
      rw [keepFirsts_cons]
      rw [List.mem_cons] at hx
      by_cases hax : sameKey cfg a x = true
      · rw [sameKey_symm cfg a x] at hax
        exact ⟨a, List.mem_cons_self a _, keys_of_sameKey hax hk⟩
      · rcases hx with rfl | hx
        · exact absurd (sameKey_of_keys hk hk) hax
        · have hmem : x ∈ l.filter (fun x => !(sameKey cfg a x)) := by
            rw [List.mem_filter]
            exact ⟨hx, by simp [hax]⟩
          have hlen : (l.filter (fun x => !(sameKey cfg a x))).length ≤ n := by
            have := List.length_filter_le (fun x => !(sameKey cfg a x)) l
            simp at hle
            omega
          obtain ⟨y, hy, hyk⟩ := ih _ hlen k x hmem hk
          exact ⟨y, List.mem_cons_of_mem _ hy, hyk⟩

/-- `keepFirsts` keeps at most one event per identity. -/
theorem keepFirsts_nodup (cfg : BatchConfig) :
    ∀ (n : Nat) (es : List Event), es.length ≤ n →
      List.Pairwise (fun a b => sameKey cfg a b = false) (keepFirsts cfg es) := by
  intro n
  induction n with
  | zero =>
    intro es hle
    rw [List.eq_nil_of_length_eq_zero (Nat.le_zero.mp hle)]
    simp [keepFirsts]
  | succ n ih =>
    intro es hle
    cases es with
    | nil => simp [keepFirsts]
    | cons a l =>
      rw [keepFirsts_cons]
      have hlen : (l.filter (fun x => !(sameKey cfg a x))).length ≤ n := by
        have := List.length_filter_le (fun x => !(sameKey cfg a x)) l
        simp at hle
        omega
      refine List.Pairwise.cons ?_ (ih _ hlen)
      intro y hy
      have hmem := keepFirsts_subset cfg n _ hlen y hy
      have := List.of_mem_filter hmem
      simpa using this

/-- `keepFirsts` over a snoc: a duplicate identity is dropped, a new
one is appended. -/
theorem keepFirsts_snoc (cfg : BatchConfig) :
    ∀ (n : Nat) (es : List Event) (e : Event), es.length ≤ n →
      keepFirsts cfg (es ++ [e])
        = (if es.any (fun x => sameKey cfg x e) then keepFirsts cfg es
           else keepFirsts cfg es ++ [e]) := by
  intro n
  induction n with
  | zero =>
    intro es e hle
    rw [List.eq_nil_of_length_eq_zero (Nat.le_zero.mp hle)]
    simp [keepFirsts_cons, keepFirsts]
  | succ n ih =>
    intro es e hle
    cases es with
    | nil => simp [keepFirsts_cons, keepFirsts]
    | cons a l =>
      rw [List.cons_append, keepFirsts_cons, List.filter_append, keepFirsts_cons]
      by_cases hae : sameKey cfg a e = true
      · have hfe : List.filter (fun x => !(sameKey cfg a x)) [e] = [] := by
          simp [hae]
        rw [hfe, List.append_nil, List.any_cons, hae]
        simp
      · have hfe : List.filter (fun x => !(sameKey cfg a x)) [e] = [e] := by
          simp [hae]
        have hlen : (l.filter (fun x => !(sameKey cfg a x))).length ≤ n := by
          have := List.length_filter_le (fun x => !(sameKey cfg a x)) l
          simp at hle
          omega
        rw [hfe, ih _ e hlen]
        have hany : (l.filter (fun x => !(sameKey cfg a x))).any (fun x => sameKey cfg x e)
            = l.any (fun x => sameKey cfg x e) := by
          rw [List.any_filter]
          rcases h1 : l.any (fun x => sameKey cfg x e) with _ | _
          · rw [List.any_eq_false] at h1 ⊢
            intro x hx hpx
            rw [Bool.and_eq_true] at hpx
            exact h1 x hx hpx.2
          · rw [List.any_eq_true] at h1 ⊢
            obtain ⟨x, hx, hxe⟩ := h1
            refine ⟨x, hx, ?_⟩
            rw [Bool.and_eq_true]
            refine ⟨?_, hxe⟩
            have hax : sameKey cfg a x = false := by
              by_contra hc
              rw [Bool.not_eq_false] at hc
              exact hae (sameKey_trans cfg hc hxe)
            rw [hax]
            rfl
        have hae' : sameKey cfg a e = false := by
          rw [Bool.not_eq_true] at hae
          exact hae
        rw [hany, List.any_cons, hae', Bool.false_or]
        rcases h2 : l.any (fun x => sameKey cfg x e) with _ | _
        · simp [keepFirsts_cons]
        · simp [keepFirsts_cons]

/-- `lastSame` over a snoc. -/
theorem lastSame_snoc (cfg : BatchConfig) (es : List Event) (e x : Event) :
    lastSame cfg (es ++ [e]) x
      = (if sameKey cfg x e then e else lastSame cfg es x) := by
  unfold lastSame
  rw [List.filter_append]
  by_cases hxe : sameKey cfg x e = true
  · rw [if_pos hxe]
    have : List.filter (fun y => sameKey cfg x y) [e] = [e] := by simp [hxe]
    rw [this, List.getLast?_concat]
    rfl
  · rw [if_neg hxe]
    have hxe' : sameKey cfg x e = false := by
      rw [Bool.not_eq_true] at hxe
      exact hxe
    have : List.filter (fun y => sameKey cfg x y) [e] = [] := by
      simp [hxe']
    rw [this, List.append_nil]

/-- `lastSame` preserves the identity. -/
theorem ckey_lastSame (cfg : BatchConfig) (es : List Event) (x : Event) :
    ckey cfg (lastSame cfg es x) = ckey cfg x := by
  unfold lastSame
  cases hf : (es.filter (fun y => sameKey cfg x y)).getLast? with
  | none => rfl
  | some y =>
    have hy : y ∈ es.filter (fun y => sameKey cfg x y) :=
      List.mem_of_mem_getLast? hf
    have hxy := List.of_mem_filter hy
    show ckey cfg y = ckey cfg x
    obtain ⟨k, hk1, hk2⟩ := (sameKey_iff cfg x y).mp hxy
    rw [hk1, hk2]

/-- `specCoalesce` over a snoc with a fresh identity appends. -/
theorem specCoalesce_snoc_new (cfg : BatchConfig) (es : List Event) (e : Event)
    (h : es.any (fun x => sameKey cfg x e) = false) :
    specCoalesce cfg (es ++ [e]) = specCoalesce cfg es ++ [e] := by
  unfold specCoalesce
  rw [keepFirsts_snoc cfg es.length es e le_rfl, h, if_neg (by simp), List.map_append]
  congr 1
  · refine List.map_congr_left fun x hx => ?_
    rw [lastSame_snoc, if_neg ?_]
    intro hxe
    have hmem := keepFirsts_subset cfg es.length es le_rfl x hx
    rw [List.any_eq_false] at h
    exact h x hmem hxe
  · simp only [List.map_cons, List.map_nil]
    rw [lastSame_snoc]
    by_cases he : sameKey cfg e e = true
    · rw [if_pos he]
    · rw [if_neg he]
      unfold lastSame
      have hfil : es.filter (fun y => sameKey cfg e y) = [] := by
        rw [List.filter_eq_nil_iff]
        intro y hy hc
        obtain ⟨k, h1, _⟩ := (sameKey_iff cfg e y).mp hc
        exact he (sameKey_of_keys h1 h1)
      rw [hfil]
      rfl

/-- `specCoalesce` over a snoc with a duplicate identity replaces the
retained slot in place. -/
theorem specCoalesce_snoc_dup (cfg : BatchConfig) (es : List Event) (e : Event)
    (h : es.any (fun x => sameKey cfg x e) = true) :
    specCoalesce cfg (es ++ [e])
      = (specCoalesce cfg es).map (fun y => if sameKey cfg y e then e else y) := by
  unfold specCoalesce
  rw [keepFirsts_snoc cfg es.length es e le_rfl, h, if_pos rfl, List.map_map]
  refine List.map_congr_left fun x _ => ?_
  show lastSame cfg (es ++ [e]) x
      = (if sameKey cfg (lastSame cfg es x) e then e else lastSame cfg es x)
  rw [lastSame_snoc]
  have hk : sameKey cfg (lastSame cfg es x) e = sameKey cfg x e := by
    unfold sameKey
    rw [ckey_lastSame]
  rw [hk]

/-- The identities of `specCoalesce` are the identities of the list. -/
theorem specCoalesce_keys (cfg : BatchConfig) (es : List Event) (k : CKey) :
    (∃ y ∈ specCoalesce cfg es, ckey cfg y = some k)
      ↔ (∃ x ∈ es, ckey cfg x = some k) := by
  constructor
  · rintro ⟨y, hy, hk⟩
    unfold specCoalesce at hy
    rw [List.mem_map] at hy
    obtain ⟨x, hx, rfl⟩ := hy
    rw [ckey_lastSame] at hk
    exact ⟨x, keepFirsts_subset cfg es.length es le_rfl x hx, hk⟩
  · rintro ⟨x, hx, hk⟩
    obtain ⟨y, hy, hyk⟩ := keepFirsts_keys_complete cfg es.length es le_rfl k x hx hk
    refine ⟨lastSame cfg es y, ?_, ?_⟩
    · exact List.mem_map_of_mem _ hy
    · rw [ckey_lastSame]
      exact hyk

/-- `specCoalesce` keeps at most one event per identity. -/
theorem specCoalesce_nodup (cfg : BatchConfig) (es : List Event) :
    List.Pairwise (fun a b => sameKey cfg a b = false) (specCoalesce cfg es) := by
  unfold specCoalesce
  refine List.Pairwise.map (lastSame cfg es) ?_ (keepFirsts_nodup cfg es.length es le_rfl)
  intro a b hab
  show sameKey cfg (lastSame cfg es a) (lastSame cfg es b) = false
  unfold sameKey at hab ⊢
  rw [ckey_lastSame, ckey_lastSame]
  exact hab

/-- Unfolding `keyAt` at a cons cell. -/
theorem keyAt_cons (cfg : BatchConfig) (x : Event) (l : List Event) (k : CKey) :
    keyAt cfg (x :: l) k
      = (if ckey cfg x = some k then some 0 else (keyAt cfg l k).map (· + 1)) := by
  by_cases h : ckey cfg x = some k
  · rw [if_pos h]
    show firstIdx (fun e => decide (ckey cfg e = some k)) (x :: l) = some 0
    rw [firstIdx]
    rw [if_pos (by simpa using h)]
  · rw [if_neg h]
    show firstIdx (fun e => decide (ckey cfg e = some k)) (x :: l)
        = (keyAt cfg l k).map (fun i => i + 1)
    rw [firstIdx]
    rw [if_neg (by simpa using h)]
    rfl

/-- What `keyAt ... = some i` says about the list. -/
theorem keyAt_some_spec (cfg : BatchConfig) :
    ∀ (l : List Event) (k : CKey) (i : Nat), keyAt cfg l k = some i →
      i < l.length ∧ ckey cfg (l.getD i default) = some k
        ∧ ∀ j < i, ¬(ckey cfg (l.getD j default) = some k) := by
  intro l
  induction l with
  | nil =>
    intro k i h
    exact absurd h (by unfold keyAt firstIdx; simp)
  | cons x l ih =>
    intro k i h
    rw [keyAt_cons] at h
    by_cases hx : ckey cfg x = some k
    · rw [if_pos hx] at h
      cases h
      refine ⟨by simp, by simpa using hx, ?_⟩
      intro j hj
      omega
    · rw [if_neg hx] at h
      cases hkl : keyAt cfg l k with
      | none =>
        rw [hkl] at h
        simp at h
      | some j =>
        rw [hkl] at h
        have hi : i = j + 1 := by simpa using h.symm
        subst hi
        obtain ⟨h1, h2, h3⟩ := ih k j hkl
        refine ⟨by simpa using Nat.succ_lt_succ h1, by simpa [List.getD_cons_succ] using h2, ?_⟩
        intro j' hj'
        cases j' with
        | zero => simpa [List.getD_cons_zero] using hx
        | succ j'' =>
          rw [List.getD_cons_succ]
          exact h3 j'' (by omega)

/-- `keyAt = none` means the identity is absent. -/
theorem keyAt_none_iff (cfg : BatchConfig) (l : List Event) (k : CKey) :
    keyAt cfg l k = none ↔ ∀ x ∈ l, ¬(ckey cfg x = some k) := by
  induction l with
  | nil => simp [keyAt, firstIdx]
  | cons x l ih =>
    rw [keyAt_cons]
    by_cases hx : ckey cfg x = some k
    · rw [if_pos hx]
      simp [hx]
    · rw [if_neg hx]
      constructor
      · intro h y hy
        rw [List.mem_cons] at hy
        have hl : keyAt cfg l k = none := Option.map_eq_none'.mp h
        rcases hy with rfl | hy
        · exact hx
        · exact (ih.mp hl) y hy
      · intro hall
        have hl : keyAt cfg l k = none :=
          ih.mpr fun y hy => hall y (List.mem_cons_of_mem _ hy)
        rw [hl]
        rfl

/-- `keyAt` over a snoc. -/
theorem keyAt_snoc (cfg : BatchConfig) :
    ∀ (l : List Event) (e : Event) (k : CKey),
      keyAt cfg (l ++ [e]) k
        = (match keyAt cfg l k with
           | some i => some i
           | none => if ckey cfg e = some k then some l.length else none) := by
  intro l
  induction l with
  | nil =>
    intro e k
    show keyAt cfg [e] k = _
    rw [keyAt_cons]
    by_cases he : ckey cfg e = some k
    · rw [if_pos he]
      simp [keyAt, firstIdx, he]
    · rw [if_neg he]
      simp [keyAt, firstIdx, he]
  | cons x l ih =>
    intro e k
    rw [List.cons_append, keyAt_cons, keyAt_cons, ih]
    by_cases hx : ckey cfg x = some k
    · rw [if_pos hx, if_pos hx]
    · rw [if_neg hx, if_neg hx]
      cases hkl : keyAt cfg l k with
      | some i => simp
      | none =>
        by_cases he : ckey cfg e = some k
        · simp [he, List.length_cons]
        · simp [he]

/-- Replacing a slot with an event of the same identity leaves every
`keyAt` unchanged. -/
theorem keyAt_set_samekey (cfg : BatchConfig) :
    ∀ (l : List Event) (i : Nat) (e : Event) (k : CKey), i < l.length →
      ckey cfg e = ckey cfg (l.getD i default) →
      keyAt cfg (l.set i e) k = keyAt cfg l k := by
  intro l
  induction l with
  | nil =>
    intro i e k h
    simp at h
  | cons x l ih =>
    intro i e k hi hk
    cases i with
    | zero =>
      rw [List.getD_cons_zero] at hk
      rw [List.set_cons_zero, keyAt_cons, keyAt_cons, hk]
    | succ i =>
      rw [List.getD_cons_succ] at hk
      rw [List.set_cons_succ, keyAt_cons, keyAt_cons,
        ih i e k (by simpa using hi) hk]

/-- In a list with pairwise distinct identities, an identity occupies
at most one position. -/
theorem nodup_unique_pos (cfg : BatchConfig) (l : List Event)
    (hnd : List.Pairwise (fun a b => sameKey cfg a b = false) l)
    {i j : Nat} {k : CKey} (hi : i < l.length) (hj : j < l.length) (hne : i ≠ j)
    (hki : ckey cfg (l.getD i default) = some k) :
    ¬(ckey cfg (l.getD j default) = some k) := by
  intro hkj
  rw [List.pairwise_iff_get] at hnd
  rw [List.getD_eq_getElem _ _ hi] at hki
  rw [List.getD_eq_getElem _ _ hj] at hkj
  rcases Nat.lt_or_ge i j with hij | hij
  · have hfalse := hnd ⟨i, hi⟩ ⟨j, hj⟩ hij
    rw [List.get_eq_getElem, List.get_eq_getElem] at hfalse
    rw [sameKey_of_keys hki hkj] at hfalse
    cases hfalse
  · have hij' : j < i := by omega
    have hfalse := hnd ⟨j, hj⟩ ⟨i, hi⟩ hij'
    rw [List.get_eq_getElem, List.get_eq_getElem] at hfalse
    rw [sameKey_of_keys hkj hki] at hfalse
    cases hfalse

/-- Pointwise replacement at the unique matching slot equals `set`. -/
theorem map_if_eq_set {α : Type} [Inhabited α] (p : α → Bool) (a : α) :
    ∀ (l : List α) (i : Nat), i < l.length → p (l.getD i default) = true →
      (∀ j < l.length, j ≠ i → p (l.getD j default) = false) →
      l.map (fun y => if p y then a else y) = l.set i a := by
  intro l
  induction l with
  | nil =>
    intro i h
    simp at h
  | cons x l ih =>
    intro i hi hp hothers
    cases i with
    | zero =>
      rw [List.getD_cons_zero] at hp
      rw [List.map_cons, List.set_cons_zero, hp, if_pos rfl]
      congr 1
      have htail : ∀ y ∈ l, p y = false := by
        intro y hy
        obtain ⟨j, hj, rfl⟩ := List.mem_iff_getElem.mp hy
        have h0 := hothers (j + 1) (by simpa using Nat.succ_lt_succ hj) (by omega)
        rwa [List.getD_cons_succ, List.getD_eq_getElem l default hj] at h0
      have hmap : l.map (fun y => if p y then a else y) = l.map id := by
        refine List.map_congr_left fun y hy => ?_
        rw [htail y hy]
        rfl
      rw [hmap, List.map_id]
    | succ i =>
      have hhead : p x = false := by
        have h0 := hothers 0 (by simp) (by omega)
        rwa [List.getD_cons_zero] at h0
      rw [List.map_cons, List.set_cons_succ, hhead, if_neg (by simp)]
      congr 1
      refine ih i (by simpa using hi) (by simpa [List.getD_cons_succ] using hp) ?_
      intro j hj hne
      have h0 := hothers (j + 1) (by simpa using Nat.succ_lt_succ hj) (by omega)
      rwa [List.getD_cons_succ] at h0

/-- Dict lookup through a cons. -/
theorem idxLookup_cons {κ : Type} [DecidableEq κ] (k0 : κ) (n : Nat)
    (ix : List (κ × Nat)) (k : κ) :
    idxLookup ((k0, n) :: ix) k = (if k0 = k then some n else idxLookup ix k) := by
  by_cases h : k0 = k
  · rw [if_pos h]
    unfold idxLookup
    rw [List.find?_cons_of_pos _ (by simpa using h)]
    rfl
  · rw [if_neg h]
    unfold idxLookup
    rw [List.find?_cons_of_neg _ (by simpa using h)]

/-- `keepFirsts` of the empty list. -/
theorem keepFirsts_nil (cfg : BatchConfig) : keepFirsts cfg [] = [] := by
  rw [keepFirsts]

/-- A duplicate identity in `es` makes the any-check fire. -/
theorem any_sameKey_of_keyAt_some (cfg : BatchConfig) (es : List Event) (e : Event)
    (k : CKey) (idx : Nat) (hck : ckey cfg e = some k)
    (hkey : keyAt cfg (specCoalesce cfg es) k = some idx) :
    es.any (fun x => sameKey cfg x e) = true := by
  obtain ⟨hlt, hkidx, _⟩ := keyAt_some_spec cfg _ k idx hkey
  have hmem : (specCoalesce cfg es).getD idx default ∈ specCoalesce cfg es := by
    rw [List.getD_eq_getElem _ _ hlt]
    exact List.getElem_mem _
  obtain ⟨x, hx, hxk⟩ := (specCoalesce_keys cfg es k).mp ⟨_, hmem, hkidx⟩
  rw [List.any_eq_true]
  exact ⟨x, hx, sameKey_of_keys hxk hck⟩

/-- A fresh identity leaves the any-check false. -/
theorem any_sameKey_of_keyAt_none (cfg : BatchConfig) (es : List Event) (e : Event)
    (k : CKey) (hck : ckey cfg e = some k)
    (hkey : keyAt cfg (specCoalesce cfg es) k = none) :
    es.any (fun x => sameKey cfg x e) = false := by
  rw [List.any_eq_false]
  intro x hx hc
  have hxk : ckey cfg x = some k := by
    rw [sameKey_symm] at hc
    exact keys_of_sameKey hc hck
  obtain ⟨y, hy, hyk⟩ := (specCoalesce_keys cfg es k).mpr ⟨x, hx, hxk⟩
  exact (keyAt_none_iff cfg _ k).mp hkey y hy hyk

/-- An event with no identity never coalesces. -/
theorem any_sameKey_of_ckey_none (cfg : BatchConfig) (es : List Event) (e : Event)
    (hck : ckey cfg e = none) :
    es.any (fun x => sameKey cfg x e) = false := by
  rw [List.any_eq_false]
  intro x hx hc
  obtain ⟨k, _, h2⟩ := (sameKey_iff cfg x e).mp hc
  rw [hck] at h2
  cases h2

/-- Appending an event of a different (or no) identity leaves `keyAt`
unchanged. -/
theorem keyAt_snoc_other (cfg : BatchConfig) (l : List Event) (e : Event) (kq : CKey)
    (h : ¬(ckey cfg e = some kq)) :
    keyAt cfg (l ++ [e]) kq = keyAt cfg l kq := by
  rw [keyAt_snoc]
  cases keyAt cfg l kq with
  | some i => rfl
  | none => rw [if_neg h]

/-- Extending an index dict with the slot of a freshly appended key
keeps it pointing at the right slots for every key. -/
theorem idx_ext_correct {κ : Type} [DecidableEq κ] (ι : κ → CKey)
    (hinj : ∀ a b : κ, ι a = ι b → a = b) (cfg : BatchConfig) (l : List Event)
    (e : Event) (mk : κ) (ix : List (κ × Nat))
    (hix : ∀ nk : κ, idxLookup ix nk = keyAt cfg l (ι nk))
    (hck : ckey cfg e = some (ι mk)) (hnone : keyAt cfg l (ι mk) = none) :
    ∀ nk : κ, idxLookup ((mk, l.length) :: ix) nk = keyAt cfg (l ++ [e]) (ι nk) := by
  intro nk
  rw [idxLookup_cons, keyAt_snoc]
  by_cases hnk : mk = nk
  · subst hnk
    rw [if_pos rfl, hnone, if_pos hck]
  · rw [if_neg hnk, hix nk]
    cases hkl : keyAt cfg l (ι nk) with
    | some i => rfl
    | none =>
      rw [if_neg ?_]
      intro hc
      rw [hck] at hc
      exact hnk (hinj _ _ (Option.some_injective _ hc))

/-- The in-place replacement path of `add` preserves the invariant. -/
theorem inv_replace (b : AdaptiveBatcher) (es : List Event) (e : Event) (idx : Nat)
    (k : CKey)
    (hev : b.events = specCoalesce b.config es)
    (hm : ∀ nk : Value × Value, idxLookup b.metric_index nk
            = keyAt b.config b.events (CKey.m nk))
    (hp : ∀ v : Value, idxLookup b.param_index v = keyAt b.config b.events (CKey.p v))
    (ht : ∀ v : Value, idxLookup b.tag_index v = keyAt b.config b.events (CKey.t v))
    (hcnt : b.stats.coalesced_count + b.events.length = es.length)
    (hck : ckey b.config e = some k)
    (hkey : keyAt b.config b.events k = some idx) :
    BatcherInv b.config (b.replaceAt idx e) (es ++ [e]) := by
  obtain ⟨hlt, hkidx, _⟩ := keyAt_some_spec b.config b.events k idx hkey
  have hkey' : keyAt b.config (specCoalesce b.config es) k = some idx := by
    rw [← hev]
    exact hkey
  have hany := any_sameKey_of_keyAt_some b.config es e k idx hck hkey'
  have hckeq : ckey b.config e = ckey b.config (b.events.getD idx default) := by
    rw [hck, hkidx]
  have hnd : List.Pairwise (fun a b' => sameKey b.config a b' = false) b.events := by
    rw [hev]
    exact specCoalesce_nodup _ _
  have hothers : ∀ j < b.events.length, j ≠ idx →
      sameKey b.config (b.events.getD j default) e = false := by
    intro j hj hne
    by_contra hc
    rw [Bool.not_eq_false] at hc
    have hjk : ckey b.config (b.events.getD j default) = some k := by
      rw [sameKey_symm] at hc
      exact keys_of_sameKey hc hck
    exact nodup_unique_pos b.config b.events hnd hlt hj (Ne.symm hne) hkidx hjk
  have hset : specCoalesce b.config (es ++ [e]) = b.events.set idx e := by
    rw [specCoalesce_snoc_dup _ _ _ hany, ← hev]
    exact map_if_eq_set (fun y => sameKey b.config y e) e b.events idx hlt
      (sameKey_of_keys hkidx hck) hothers
  refine ⟨rfl, ?_, ?_, ?_, ?_, ?_⟩
  · show b.events.set idx e = specCoalesce b.config (es ++ [e])
    exact hset.symm
  · intro nk
    show idxLookup b.metric_index nk = keyAt b.config (b.events.set idx e) (CKey.m nk)
    rw [keyAt_set_samekey b.config b.events idx e _ hlt hckeq]
    exact hm nk
  · intro v
    show idxLookup b.param_index v = keyAt b.config (b.events.set idx e) (CKey.p v)
    rw [keyAt_set_samekey b.config b.events idx e _ hlt hckeq]
    exact hp v
  · intro v
    show idxLookup b.tag_index v = keyAt b.config (b.events.set idx e) (CKey.t v)
    rw [keyAt_set_samekey b.config b.events idx e _ hlt hckeq]
    exact ht v
  · show b.stats.coalesced_count + 1 + (b.events.set idx e).length = (es ++ [e]).length
    rw [List.length_set, List.length_append]
    simp only [List.length_cons, List.length_nil]
    omega

/-- One `add` preserves the simulation invariant. -/
theorem batcherInv_step (cfg : BatchConfig) (b : AdaptiveBatcher) (es : List Event)
    (e : Event) (h : BatcherInv cfg b es) : BatcherInv cfg (b.add e) (es ++ [e]) := by
  obtain ⟨hcfg, hev, hm, hp, ht, hcnt⟩ := h
  subst hcfg
  unfold AdaptiveBatcher.add
  by_cases h1 : e.type = EventType.metric ∧ b.config.coalesce_metrics = true
  · rw [if_pos h1]
    have hck : ckey b.config e = some (CKey.m (metricKey e)) := by
      unfold ckey
      rw [if_pos h1]
    cases hidx : idxLookup b.metric_index (metricKey e) with
    | some idx =>
      have hstep : b.addMetricCoalesced e = b.replaceAt idx e := by
        simp only [AdaptiveBatcher.addMetricCoalesced, hidx]
      rw [hstep]
      exact inv_replace b es e idx _ hev hm hp ht hcnt hck (by rw [← hm]; exact hidx)
    | none =>
      have hstep : b.addMetricCoalesced e
          = ({ b with
                metric_index := (metricKey e, b.events.length) :: b.metric_index
                events := b.events ++ [e] }).updateStats e := by
        simp only [AdaptiveBatcher.addMetricCoalesced, hidx]
      rw [hstep]
      have hkeyn : keyAt b.config b.events (CKey.m (metricKey e)) = none := by
        rw [← hm]
        exact hidx
      have hkeyn' : keyAt b.config (specCoalesce b.config es) (CKey.m (metricKey e))
          = none := by
        rw [← hev]
        exact hkeyn
      have hany := any_sameKey_of_keyAt_none b.config es e _ hck hkeyn'
      have hnew := specCoalesce_snoc_new b.config es e hany
      refine ⟨rfl, ?_, ?_, ?_, ?_, ?_⟩
      · show b.events ++ [e] = specCoalesce b.config (es ++ [e])
        rw [hnew, ← hev]
      · intro nk
        show idxLookup ((metricKey e, b.events.length) :: b.metric_index) nk
            = keyAt b.config (b.events ++ [e]) (CKey.m nk)
        exact idx_ext_correct CKey.m (fun a b' hh => by injection hh) b.config b.events e
          (metricKey e) b.metric_index hm hck hkeyn nk
      · intro v
        show idxLookup b.param_index v = keyAt b.config (b.events ++ [e]) (CKey.p v)
        rw [keyAt_snoc_other b.config b.events e _ (by rw [hck]; simp)]
        exact hp v
      · intro v
        show idxLookup b.tag_index v = keyAt b.config (b.events ++ [e]) (CKey.t v)
        rw [keyAt_snoc_other b.config b.events e _ (by rw [hck]; simp)]
        exact ht v
      · show b.stats.coalesced_count + (b.events ++ [e]).length = (es ++ [e]).length
        rw [List.length_append, List.length_append]
        simp only [List.length_cons, List.length_nil]
        omega
  · rw [if_neg h1]
    by_cases h2 : e.type = EventType.param ∧ b.config.dedupe_params = true
    · rw [if_pos h2]
      have hck : ckey b.config e = some (CKey.p (paramKey e)) := by
        unfold ckey
        rw [if_neg h1, if_pos h2]
      cases hidx : idxLookup b.param_index (paramKey e) with
      | some idx =>
        have hstep : b.addParamDeduped e = b.replaceAt idx e := by
          simp only [AdaptiveBatcher.addParamDeduped, hidx]
        rw [hstep]
        exact inv_replace b es e idx _ hev hm hp ht hcnt hck (by rw [← hp]; exact hidx)
      | none =>
        have hstep : b.addParamDeduped e
            = ({ b with
                  param_index := (paramKey e, b.events.length) :: b.param_index
                  events := b.events ++ [e] }).updateStats e := by
          simp only [AdaptiveBatcher.addParamDeduped, hidx]
        rw [hstep]
        have hkeyn : keyAt b.config b.events (CKey.p (paramKey e)) = none := by
          rw [← hp]
          exact hidx
        have hkeyn' : keyAt b.config (specCoalesce b.config es) (CKey.p (paramKey e))
            = none := by
          rw [← hev]
          exact hkeyn
        have hany := any_sameKey_of_keyAt_none b.config es e _ hck hkeyn'
        have hnew := specCoalesce_snoc_new b.config es e hany
        refine ⟨rfl, ?_, ?_, ?_, ?_, ?_⟩
        · show b.events ++ [e] = specCoalesce b.config (es ++ [e])
          rw [hnew, ← hev]
        · intro nk
          show idxLookup b.metric_index nk = keyAt b.config (b.events ++ [e]) (CKey.m nk)
          rw [keyAt_snoc_other b.config b.events e _ (by rw [hck]; simp)]
          exact hm nk
        · intro v
          show idxLookup ((paramKey e, b.events.length) :: b.param_index) v
              = keyAt b.config (b.events ++ [e]) (CKey.p v)
          exact idx_ext_correct CKey.p (fun a b' hh => by injection hh) b.config b.events e
            (paramKey e) b.param_index hp hck hkeyn v
        · intro v
          show idxLookup b.tag_index v = keyAt b.config (b.events ++ [e]) (CKey.t v)
          rw [keyAt_snoc_other b.config b.events e _ (by rw [hck]; simp)]
          exact ht v
        · show b.stats.coalesced_count + (b.events ++ [e]).length = (es ++ [e]).length
          rw [List.length_append, List.length_append]
          simp only [List.length_cons, List.length_nil]
          omega
    · rw [if_neg h2]
      by_cases h3 : e.type = EventType.tag ∧ b.config.dedupe_tags = true
      · rw [if_pos h3]
        have hck : ckey b.config e = some (CKey.t (tagKey e)) := by
          unfold ckey
          rw [if_neg h1, if_neg h2, if_pos h3]
        cases hidx : idxLookup b.tag_index (tagKey e) with
        | some idx =>
          have hstep : b.addTagDeduped e = b.replaceAt idx e := by
            simp only [AdaptiveBatcher.addTagDeduped, hidx]
          rw [hstep]
          exact inv_replace b es e idx _ hev hm hp ht hcnt hck (by rw [← ht]; exact hidx)
        | none =>
          have hstep : b.addTagDeduped e
              = ({ b with
                    tag_index := (tagKey e, b.events.length) :: b.tag_index
                    events := b.events ++ [e] }).updateStats e := by
            simp only [AdaptiveBatcher.addTagDeduped, hidx]
          rw [hstep]
          have hkeyn : keyAt b.config b.events (CKey.t (tagKey e)) = none := by
            rw [← ht]
            exact hidx
          have hkeyn' : keyAt b.config (specCoalesce b.config es) (CKey.t (tagKey e))
              = none := by
            rw [← hev]
            exact hkeyn
          have hany := any_sameKey_of_keyAt_none b.config es e _ hck hkeyn'
          have hnew := specCoalesce_snoc_new b.config es e hany
          refine ⟨rfl, ?_, ?_, ?_, ?_, ?_⟩
          · show b.events ++ [e] = specCoalesce b.config (es ++ [e])
            rw [hnew, ← hev]
          · intro nk
            show idxLookup b.metric_index nk = keyAt b.config (b.events ++ [e]) (CKey.m nk)
            rw [keyAt_snoc_other b.config b.events e _ (by rw [hck]; simp)]
            exact hm nk
          · intro v
            show idxLookup b.param_index v = keyAt b.config (b.events ++ [e]) (CKey.p v)
            rw [keyAt_snoc_other b.config b.events e _ (by rw [hck]; simp)]
            exact hp v
          · intro v
            show idxLookup ((tagKey e, b.events.length) :: b.tag_index) v
                = keyAt b.config (b.events ++ [e]) (CKey.t v)
            exact idx_ext_correct CKey.t (fun a b' hh => by injection hh) b.config b.events e
              (tagKey e) b.tag_index ht hck hkeyn v
          · show b.stats.coalesced_count + (b.events ++ [e]).length = (es ++ [e]).length
            rw [List.length_append, List.length_append]
            simp only [List.length_cons, List.length_nil]
            omega
      · rw [if_neg h3]
        have hck : ckey b.config e = none := by
          unfold ckey
          rw [if_neg h1, if_neg h2, if_neg h3]
        have hany := any_sameKey_of_ckey_none b.config es e hck
        have hnew := specCoalesce_snoc_new b.config es e hany
        refine ⟨rfl, ?_, ?_, ?_, ?_, ?_⟩
        · show b.events ++ [e] = specCoalesce b.config (es ++ [e])
          rw [hnew, ← hev]
        · intro nk
          show idxLookup b.metric_index nk = keyAt b.config (b.events ++ [e]) (CKey.m nk)
          rw [keyAt_snoc_other b.config b.events e _ (by rw [hck]; simp)]
          exact hm nk
        · intro v
          show idxLookup b.param_index v = keyAt b.config (b.events ++ [e]) (CKey.p v)
          rw [keyAt_snoc_other b.config b.events e _ (by rw [hck]; simp)]
          exact hp v
        · intro v
          show idxLookup b.tag_index v = keyAt b.config (b.events ++ [e]) (CKey.t v)
          rw [keyAt_snoc_other b.config b.events e _ (by rw [hck]; simp)]
          exact ht v
        · show b.stats.coalesced_count + (b.events ++ [e]).length = (es ++ [e]).length
          rw [List.length_append, List.length_append]
          simp only [List.length_cons, List.length_nil]
          omega

/-- Folding a whole add-sequence establishes the invariant. -/
theorem batcherInv_fold (cfg : BatchConfig) (es : List Event) :
    BatcherInv cfg (batchAddAll cfg es) es := by
  induction es using List.reverseRecOn with
  | nil =>
    refine ⟨rfl, ?_, fun _ => rfl, fun _ => rfl, fun _ => rfl, rfl⟩
    show ([] : List Event) = specCoalesce cfg []
    unfold specCoalesce
    rw [keepFirsts_nil]
    rfl
  | append_singleton l e ih =>
    have hstep := batcherInv_step cfg (batchAddAll cfg l) l e ih
    unfold batchAddAll at *
    rwa [List.foldl_append, List.foldl_cons, List.foldl_nil]

/-- In a list with pairwise distinct identities, filtering an
inhabited identity keeps exactly its one holder. -/
theorem filter_key_of_nodup (cfg : BatchConfig) (k : CKey) :
    ∀ (L : List Event), List.Pairwise (fun a b => sameKey cfg a b = false) L →
      ∀ y ∈ L, ckey cfg y = some k →
        L.filter (fun x => ckey cfg x = some k) = [y] := by
  intro L
  induction L with
  | nil =>
    intro _ y hy
    simp at hy
  | cons z L ih =>
    intro hnd y hy hk
    obtain ⟨hz, hnd'⟩ := List.pairwise_cons.mp hnd
    rw [List.mem_cons] at hy
    by_cases hzk : ckey cfg z = some k
    · have hrest : L.filter (fun x => ckey cfg x = some k) = [] := by
        rw [List.filter_eq_nil_iff]
        intro w hw hc
        have h1 := sameKey_of_keys hzk (of_decide_eq_true hc)
        rw [hz w hw] at h1
        cases h1
      have hyz : y = z := by
        rcases hy with rfl | hy
        · rfl
        · exact absurd (sameKey_of_keys hzk hk) (by rw [hz y hy]; simp)
      subst hyz
      rw [List.filter_cons_of_pos (by simpa using hzk), hrest]
    · have hyy : y ∈ L := by
        rcases hy with rfl | hy
        · exact absurd hk hzk
        · exact hy
      rw [List.filter_cons_of_neg (by simpa using hzk)]
      exact ih hnd' y hyy hk

/-- The per-identity content of `specCoalesce`: exactly the last event
of that identity (or nothing). -/
theorem specCoalesce_filter_key (cfg : BatchConfig) (es : List Event) (k : CKey) :
    (specCoalesce cfg es).filter (fun x => ckey cfg x = some k)
      = ((es.filter (fun x => ckey cfg x = some k)).getLast?).toList := by
  by_cases hex : ∃ x ∈ es, ckey cfg x = some k
  · obtain ⟨x, hx, hk⟩ := hex
    obtain ⟨y, hy, hyk⟩ := keepFirsts_keys_complete cfg es.length es le_rfl k x hx hk
    have hkeep : (keepFirsts cfg es).filter (fun x => ckey cfg x = some k) = [y] :=
      filter_key_of_nodup cfg k _ (keepFirsts_nodup cfg es.length es le_rfl) y hy hyk
    have hcomm : (specCoalesce cfg es).filter (fun x => ckey cfg x = some k)
        = ((keepFirsts cfg es).filter (fun x => ckey cfg x = some k)).map
            (lastSame cfg es) := by
      unfold specCoalesce
      rw [List.filter_map]
      congr 1
      refine List.filter_congr fun z _ => ?_
      show decide (ckey cfg (lastSame cfg es z) = some k) = decide (ckey cfg z = some k)
      rw [ckey_lastSame]
    rw [hcomm, hkeep, List.map_cons, List.map_nil]
    have hfil : es.filter (fun z => sameKey cfg y z)
        = es.filter (fun x => ckey cfg x = some k) := by
      refine List.filter_congr fun z _ => ?_
      show sameKey cfg y z = decide (ckey cfg z = some k)
      cases hzk : ckey cfg z with
      | none =>
        unfold sameKey
        rw [hyk, hzk]
        simp
      | some k' =>
        unfold sameKey
        rw [hyk, hzk]
        show decide (k = k') = decide (some k' = some k)
        rcases eq_or_ne k k' with rfl | hkk
        · simp
        · rw [decide_eq_false hkk, decide_eq_false (by simpa using hkk.symm)]
    have hne : es.filter (fun x => ckey cfg x = some k) ≠ [] := by
      intro hnil
      have : x ∈ es.filter (fun x => ckey cfg x = some k) :=
        List.mem_filter.mpr ⟨hx, by simpa using hk⟩
      rw [hnil] at this
      simp at this
    obtain ⟨w, hw⟩ := Option.ne_none_iff_exists'.mp
      (mt List.getLast?_eq_none_iff.mp hne)
    unfold lastSame
    rw [hfil, hw]
    rfl
  · push_neg at hex
    have h1 : (specCoalesce cfg es).filter (fun x => ckey cfg x = some k) = [] := by
      rw [List.filter_eq_nil_iff]
      intro y hy hc
      obtain ⟨x, hx, hxk⟩ := (specCoalesce_keys cfg es k).mp ⟨y, hy, of_decide_eq_true hc⟩
      exact hex x hx hxk
    have h2 : es.filter (fun x => ckey cfg x = some k) = [] := by
      rw [List.filter_eq_nil_iff]
      intro y hy hc
      exact hex y hy (of_decide_eq_true hc)
    rw [h1, h2]
    rfl

/-- C1: with metric coalescing and param/tag dedup enabled, folding
any add-sequence into a fresh `AdaptiveBatcher` and flushing yields
exactly the spec-level coalescing `specCoalesce`: for each identity —
`(name, step)` for metrics, `name` for params, `key` for tags —
exactly one event survives (the returned list has pairwise distinct
identities) and its payload is the event added last with that
identity (the per-identity filter equals the last matching input);
the returned order is the first-insertion order of retained
identities (replacements keep their slot, as `specCoalesce` is built
from `keepFirsts`); and `stats.coalesced_count` equals the number of
replacements performed, `es.length - (specCoalesce cfg es).length`. -/
theorem batcher_coalescing_spec (cfg : BatchConfig) (es : List Event)
    (hcm : cfg.coalesce_metrics = true) (hdp : cfg.dedupe_params = true)
    (hdt : cfg.dedupe_tags = true) :
    (batchAddAll cfg es).flush.1 = specCoalesce cfg es
    ∧ (batchAddAll cfg es).flush.2.coalesced_count
        = es.length - (specCoalesce cfg es).length
    ∧ (∀ k : CKey, (batchAddAll cfg es).flush.1.filter (fun x => ckey cfg x = some k)
        = ((es.filter (fun x => ckey cfg x = some k)).getLast?).toList)
    ∧ List.Pairwise (fun a b => sameKey cfg a b = false) ((batchAddAll cfg es).flush.1) := by
  obtain ⟨-, hev, -, -, -, hcnt⟩ := batcherInv_fold cfg es
  have hflush1 : (batchAddAll cfg es).flush.1 = specCoalesce cfg es := hev
  refine ⟨hflush1, ?_, ?_, ?_⟩
  · show (batchAddAll cfg es).stats.coalesced_count = _
    rw [hev] at hcnt
    omega
  · intro k
    rw [hflush1]
    exact specCoalesce_filter_key cfg es k
  · rw [hflush1]
    exact specCoalesce_nodup cfg es

/-- Witness for `batcher_coalescing_spec`: two metrics at the same
`(name, step)` coalesce into the later one, counting one
replacement. -/
theorem batcher_coalescing_spec_witness :
    (batchAddAll ⟨1000, 1000000, true, true, true⟩
        [⟨.metric, "r", 0, [("name", .str "loss"), ("value", .num 5), ("step", .int 0)]⟩,
         ⟨.metric, "r", 0, [("name", .str "loss"), ("value", .num 3), ("step", .int 0)]⟩]).flush.2.coalesced_count
      = ([⟨.metric, "r", 0, [("name", .str "loss"), ("value", .num 5), ("step", .int 0)]⟩,
          ⟨.metric, "r", 0, [("name", .str "loss"), ("value", .num 3), ("step", .int 0)]⟩] : List Event).length
        - (specCoalesce ⟨1000, 1000000, true, true, true⟩
            [⟨.metric, "r", 0, [("name", .str "loss"), ("value", .num 5), ("step", .int 0)]⟩,
             ⟨.metric, "r", 0, [("name", .str "loss"), ("value", .num 3), ("step", .int 0)]⟩]).length :=
  (batcher_coalescing_spec ⟨1000, 1000000, true, true, true⟩
    [⟨.metric, "r", 0, [("name", .str "loss"), ("value", .num 5), ("step", .int 0)]⟩,
     ⟨.metric, "r", 0, [("name", .str "loss"), ("value", .num 3), ("step", .int 0)]⟩]
    rfl rfl rfl).2.1

end MLRun
